import Mathlib

/-!
Verification development for the awspirin-lib policy-assembly core.

The TypeScript sources are shallowly embedded in Lean:
  * `Arn` embeds `src/utils/arn.ts` (identifier grammar: `parseARN`,
    `formatARN`, `validateARNFormat`, `matchARNPattern`);
  * `Deps` embeds the dependency resolver of `src/utils/dependencies.ts`
    (`resolveDependencies` over a `DependencyConfig`);
  * `Core` embeds `src/core/PolicyCore.ts` (the `PolicyCore` engine state
    and its methods, including `generatePolicy` / `optimizeStatements`).

Modelling conventions: JavaScript strings are modelled as `String`
(sequences of characters); `Map`s and plain objects used as keyed records
are modelled as insertion-ordered association lists (`List (String × α)`)
with `lookupA` (first match) and `updateAssoc` (update-in-place or append,
matching `Map.set`); JS `Set`s are modelled as duplicate-free lists in
insertion order (`setAdd` / `setAddAll`).  Anchored JavaScript regular
expressions built from character classes are translated into explicit
character-list parsers; the `.` regex atom (and hence `.+` / `.*`) does not
match the JS line-terminator characters, which `isLineTerm` captures.
-/

/-- First-match lookup in an association list, as JS `Map.get` /
object-key access on a record with string keys. -/
def lookupA {α : Type} : List (String × α) → String → Option α
  | [], _ => none
  | (k', v) :: rest, k => if k' = k then some v else lookupA rest k

/-- JS `Map.set`: update the binding in place when the key is present,
otherwise append a new binding at the end (insertion order preserved). -/
def updateAssoc {α : Type} : List (String × α) → String → α → List (String × α)
  | [], k, v => [(k, v)]
  | (k', v') :: rest, k, v =>
    if k' = k then (k, v) :: rest else (k', v') :: updateAssoc rest k v

/-- JS `Set.add`: append the element unless already present. -/
def setAdd (s : List String) (x : String) : List String :=
  if x ∈ s then s else s ++ [x]

/-- Repeated `Set.add` over a list, in order. -/
def setAddAll (s : List String) (xs : List String) : List String :=
  xs.foldl setAdd s

/-- `[...new Set(xs)]`: duplicates removed, first occurrences kept in order. -/
def dedupFirst (xs : List String) : List String :=
  setAddAll [] xs

/-- Split a character list at the first `:`; `none` when no colon occurs.
This is the deterministic reading of a `([^:]*):` regex step. -/
def takeField : List Char → Option (List Char × List Char)
  | [] => none
  | c :: rest =>
    if c = ':' then some ([], rest)
    else (takeField rest).map (fun p => (c :: p.1, p.2))

/-- JS `String.prototype.split(':')` on a character list. -/
def splitCols : List Char → List (List Char)
  | [] => [[]]
  | c :: rest =>
    if c = ':' then [] :: splitCols rest
    else
      match splitCols rest with
      | [] => [[c]]
      | f :: fs => (c :: f) :: fs

/-- Substring test on character lists (JS `String.prototype.includes`). -/
def hasSub : List Char → List Char → Bool
  | l, sub =>
    match l with
    | [] => sub.isEmpty
    | _ :: rest => sub.isPrefixOf l || hasSub rest sub

/-- Substring test on strings. -/
def strContains (s sub : String) : Bool :=
  hasSub s.toList sub.toList

/-- The JS line-terminator characters, which the regex `.` atom does not
match (no `s`/`m` flags are used anywhere in the sources). -/
def isLineTerm (c : Char) : Bool :=
  c == '\n' || c == '\r' || c == '\u2028' || c == '\u2029'

theorem mem_setAdd {s : List String} {x y : String} :
    y ∈ setAdd s x ↔ y ∈ s ∨ y = x := by
  unfold setAdd
  split
  · constructor
    · exact Or.inl
    · rintro (h | rfl)
      · exact h
      · assumption
  · simp

theorem nodup_setAdd {s : List String} {x : String} (h : s.Nodup) :
    (setAdd s x).Nodup := by
  unfold setAdd
  split
  · exact h
  · next hx =>
    rw [List.nodup_append]
    refine ⟨h, List.nodup_singleton x, ?_⟩
    intro a ha hax
    simp only [List.mem_singleton] at hax
    exact hx (hax ▸ ha)

theorem mem_setAddAll {s xs : List String} {y : String} :
    y ∈ setAddAll s xs ↔ y ∈ s ∨ y ∈ xs := by
  induction xs generalizing s with
  | nil => simp [setAddAll]
  | cons x xs ih =>
    show y ∈ setAddAll (setAdd s x) xs ↔ _
    rw [ih, mem_setAdd]
    simp only [List.mem_cons]
    tauto

theorem nodup_setAddAll {s xs : List String} (h : s.Nodup) :
    (setAddAll s xs).Nodup := by
  induction xs generalizing s with
  | nil => exact h
  | cons x xs ih => exact ih (nodup_setAdd h)

theorem mem_dedupFirst {xs : List String} {y : String} :
    y ∈ dedupFirst xs ↔ y ∈ xs := by
  unfold dedupFirst
  rw [mem_setAddAll]
  simp

theorem nodup_dedupFirst {xs : List String} : (dedupFirst xs).Nodup :=
  nodup_setAddAll List.nodup_nil

theorem lookupA_mem {α : Type} {m : List (String × α)} {k : String} {v : α}
    (h : lookupA m k = some v) : (k, v) ∈ m := by
  induction m with
  | nil => simp [lookupA] at h
  | cons p rest ih =>
    obtain ⟨k', v'⟩ := p
    rw [lookupA] at h
    split at h
    · cases h
      subst_vars
      exact List.mem_cons_self _ _
    · exact List.mem_cons_of_mem _ (ih h)

theorem lookupA_eq_none {α : Type} {m : List (String × α)} {k : String} :
    lookupA m k = none ↔ ∀ p ∈ m, p.1 ≠ k := by
  induction m with
  | nil => simp [lookupA]
  | cons p rest ih =>
    obtain ⟨k', v'⟩ := p
    rw [lookupA]
    split
    · simp_all
    · simp_all

theorem lookupA_eq_some_of_mem {α : Type} {m : List (String × α)} {k : String} {v : α}
    (hnd : (m.map (·.1)).Nodup) (h : (k, v) ∈ m) : lookupA m k = some v := by
  induction m with
  | nil => cases h
  | cons p rest ih =>
    obtain ⟨k', v'⟩ := p
    simp only [List.map_cons, List.nodup_cons] at hnd
    rw [lookupA]
    rcases List.mem_cons.mp h with h | h
    · cases h
      simp
    · have hne : k' ≠ k := by
        intro he
        exact hnd.1 (by simpa [he] using List.mem_map_of_mem (·.1) h)
      rw [if_neg hne]
      exact ih hnd.2 h

theorem mem_keys_of_mem {α : Type} {m : List (String × α)} {p : String × α}
    (h : p ∈ m) : p.1 ∈ m.map (·.1) :=
  List.mem_map_of_mem _ h

theorem mem_updateAssoc_self {α : Type} {m : List (String × α)} {k : String} {v : α} :
    (k, v) ∈ updateAssoc m k v := by
  induction m with
  | nil => simp [updateAssoc]
  | cons p rest ih =>
    obtain ⟨k', v'⟩ := p
    rw [updateAssoc]
    split
    · exact List.mem_cons_self _ _
    · exact List.mem_cons_of_mem _ ih

theorem mem_updateAssoc_of_ne {α : Type} {m : List (String × α)} {k : String} {v : α}
    {p : String × α} (h : p ∈ updateAssoc m k v) (hne : p.1 ≠ k) : p ∈ m := by
  induction m with
  | nil =>
    simp [updateAssoc] at h
    simp [h] at hne
  | cons q rest ih =>
    obtain ⟨k', v'⟩ := q
    rw [updateAssoc] at h
    by_cases hk : k' = k
    · rw [if_pos hk] at h
      rcases List.mem_cons.mp h with h1 | h1
      · exact absurd (congrArg Prod.fst h1) hne
      · exact List.mem_cons_of_mem _ h1
    · rw [if_neg hk] at h
      rcases List.mem_cons.mp h with h1 | h1
      · exact h1 ▸ List.mem_cons_self _ _
      · exact List.mem_cons_of_mem _ (ih h1)

theorem mem_updateAssoc_of_mem_ne {α : Type} {m : List (String × α)} {k : String} {v : α}
    {p : String × α} (h : p ∈ m) (hne : p.1 ≠ k) : p ∈ updateAssoc m k v := by
  induction m with
  | nil => cases h
  | cons q rest ih =>
    obtain ⟨k', v'⟩ := q
    rw [updateAssoc]
    by_cases hk : k' = k
    · rw [if_pos hk]
      rcases List.mem_cons.mp h with h1 | h1
      · exact absurd ((congrArg Prod.fst h1).trans hk) hne
      · exact List.mem_cons_of_mem _ h1
    · rw [if_neg hk]
      rcases List.mem_cons.mp h with h1 | h1
      · exact h1 ▸ List.mem_cons_self _ _
      · exact List.mem_cons_of_mem _ (ih h1)

theorem keys_updateAssoc_of_found {α : Type} {m : List (String × α)} {k : String}
    {v w : α} (h : lookupA m k = some w) :
    (updateAssoc m k v).map (·.1) = m.map (·.1) := by
  induction m with
  | nil => simp [lookupA] at h
  | cons p rest ih =>
    obtain ⟨k', v'⟩ := p
    rw [lookupA] at h
    rw [updateAssoc]
    split
    · simp_all
    · rw [if_neg ‹¬ k' = k›] at h
      simp [ih h]

theorem keys_updateAssoc_of_not_found {α : Type} {m : List (String × α)} {k : String}
    {v : α} (h : lookupA m k = none) :
    (updateAssoc m k v).map (·.1) = m.map (·.1) ++ [k] := by
  induction m with
  | nil => simp [updateAssoc]
  | cons p rest ih =>
    obtain ⟨k', v'⟩ := p
    rw [lookupA] at h
    split at h
    · cases h
    · rw [updateAssoc, if_neg ‹¬ k' = k›]
      simp [ih h]

theorem eq_of_mem_nodup_keys {α : Type} {m : List (String × α)} {k : String} {a b : α}
    (hnd : (m.map (·.1)).Nodup) (ha : (k, a) ∈ m) (hb : (k, b) ∈ m) : a = b := by
  have h1 := lookupA_eq_some_of_mem hnd ha
  have h2 := lookupA_eq_some_of_mem hnd hb
  rw [h1] at h2
  exact Option.some_inj.mp h2

namespace Arn

/-- Structured form of an identifier, as `ParsedARN` in `src/utils/arn.ts`. -/
structure ParsedARN where
  partition : String
  service : String
  region : String
  accountId : String
  resource : String
  resourceType : Option String
deriving DecidableEq

/-- The raw five colon-delimited fields plus the remainder, as produced by
the anchored regex prefix `^([^:]*):([^:]*):([^:]*):([^:]*):([^:]*):` read
deterministically; shared by `parseARN`, `validateARNFormat` and the
engine's `validateARN` shape regex, whose field constraints differ. -/
structure RawFields where
  f0 : List Char
  f1 : List Char
  f2 : List Char
  f3 : List Char
  f4 : List Char
  rest : List Char
deriving DecidableEq

/-- Split an identifier into its first five fields and the remainder. -/
def parseFields (cs : List Char) : Option RawFields :=
  match takeField cs with
  | none => none
  | some (f0, r0) =>
    match takeField r0 with
    | none => none
    | some (f1, r1) =>
      match takeField r1 with
      | none => none
      | some (f2, r2) =>
        match takeField r2 with
        | none => none
        | some (f3, r3) =>
          match takeField r3 with
          | none => none
          | some (f4, r4) => some ⟨f0, f1, f2, f3, f4, r4⟩

/-- Validation of the matched fields (the `arn` tag, nonempty partition
and service, nonempty line-terminator-free remainder) and decoding of the
resource part, as the body of `parseARN` after its regex match. -/
def decodeFields (f : RawFields) : Option ParsedARN :=
  if f.f0 = ['a', 'r', 'n'] ∧ f.f1 ≠ [] ∧ f.f2 ≠ [] ∧ f.rest ≠ [] ∧
      f.rest.all (fun c => !isLineTerm c) then
    if f.f2 = ['s', '3'] then
      some ⟨String.mk f.f1, String.mk f.f2, String.mk f.f3, String.mk f.f4,
        String.mk f.rest, none⟩
    else if '/' ∈ f.rest then
      some ⟨String.mk f.f1, String.mk f.f2, String.mk f.f3, String.mk f.f4,
        String.mk ((f.rest.dropWhile (· != '/')).drop 1),
        some (String.mk (f.rest.takeWhile (· != '/')))⟩
    else if ':' ∈ f.rest then
      some ⟨String.mk f.f1, String.mk f.f2, String.mk f.f3, String.mk f.f4,
        String.mk ((f.rest.dropWhile (· != ':')).drop 1),
        some (String.mk (f.rest.takeWhile (· != ':')))⟩
    else
      some ⟨String.mk f.f1, String.mk f.f2, String.mk f.f3, String.mk f.f4,
        String.mk f.rest, none⟩
  else none

/-- `parseARN` of `src/utils/arn.ts`: match against
`^arn:([^:]+):([^:]+):([^:]*):([^:]*):(.+)$`, then decode the resource
part: for the `s3` service the whole remainder is the resource; otherwise
split at the first `/` (resource-type / resource), else at the first `:`,
else no resource type. -/
def parseARN (arn : String) : Option ParsedARN :=
  match parseFields arn.toList with
  | none => none
  | some f => decodeFields f

/-- The resource part `formatARN` re-emits.  Note that the JS truthiness
test `parsed.resourceType ? ... : ...` treats the empty string like
`undefined`. -/
def formatResourcePart (p : ParsedARN) : String :=
  match p.resourceType with
  | some t => if t = "" then p.resource else t ++ "/" ++ p.resource
  | none => p.resource

/-- `formatARN` of `src/utils/arn.ts`. -/
def formatARN (p : ParsedARN) : String :=
  "arn:" ++ p.partition ++ ":" ++ p.service ++ ":" ++ p.region ++ ":" ++
    p.accountId ++ ":" ++ formatResourcePart p

/-- `validateARNFormat` of `src/utils/arn.ts`: test against
`^arn:[^:]+:[^:]+:[^:]*:[^:]*:.+$`. -/
def validateARNFormat (arn : String) : Bool :=
  match parseFields arn.toList with
  | none => false
  | some f =>
    f.f0 == ['a', 'r', 'n'] && !f.f1.isEmpty && !f.f2.isEmpty &&
      !f.rest.isEmpty && f.rest.all (fun c => !isLineTerm c)

/-- Regex atoms occurring in the pattern built by `matchARNPattern`:
a literal character, `.` (any single non-line-terminator character,
produced both by `?` and by an unescaped `.` in the pattern), and `.*`
(any sequence of non-line-terminator characters, produced by `*`). -/
inductive RTok where
  | anyStar : RTok
  | anyOne : RTok
  | lit : Char → RTok
deriving DecidableEq

/-- JS regex metacharacters that `matchARNPattern` passes through without
escaping and whose resulting regex behaviour (including `SyntaxError` for
unbalanced group or class brackets) is outside this model.  `.` is passed
through unescaped as well but its behaviour is modelled (`RTok.anyOne`);
`$` is escaped by the code and so stays a literal. -/
def unmodeledMeta : List Char :=
  ['^', '+', '(', ')', '[', ']', '\x7b', '\x7d', '|', '\\']

/-- Compile a `matchARNPattern` pattern into the token list of the regex
`^p$` obtained after the code's three replacements (`*` to `.*`, `?` to
`.`, `$` to `\$`); `none` when the pattern contains a metacharacter whose
behaviour is not modelled. -/
def compileGlob : List Char → Option (List RTok)
  | [] => some []
  | c :: rest =>
    if c = '*' then (compileGlob rest).map (RTok.anyStar :: ·)
    else if c = '?' then (compileGlob rest).map (RTok.anyOne :: ·)
    else if c = '.' then (compileGlob rest).map (RTok.anyOne :: ·)
    else if c ∈ unmodeledMeta then none
    else (compileGlob rest).map (RTok.lit c :: ·)

/-- Anchored matching of the compiled token list against the input, with
the JS backtracking semantics of `.*`. -/
def matchToks : List RTok → List Char → Bool
  | [], [] => true
  | [], _ :: _ => false
  | RTok.lit _ :: _, [] => false
  | RTok.lit c :: ts, x :: xs => c == x && matchToks ts xs
  | RTok.anyOne :: _, [] => false
  | RTok.anyOne :: ts, x :: xs => !isLineTerm x && matchToks ts xs
  | RTok.anyStar :: ts, [] => matchToks ts []
  | RTok.anyStar :: ts, x :: xs =>
    matchToks ts (x :: xs) || (!isLineTerm x && matchToks (RTok.anyStar :: ts) xs)
termination_by ts cs => (cs.length, ts.length)

/-- `matchARNPattern` of `src/utils/arn.ts`: build `^p$` from the pattern
by replacing `*` with `.*`, `?` with `.` and `$` with `\$`, and test the
identifier against it.  `none` marks patterns containing further regex
metacharacters, which the code passes to `new RegExp` unescaped and which
this model does not cover. -/
def matchARNPattern (arn pattern : String) : Option Bool :=
  (compileGlob pattern.toList).map (fun ts => matchToks ts arn.toList)

/-- Declarative semantics of the compiled token list: the anchored
language of the regex `^p$`. -/
inductive GlobMatch : List RTok → List Char → Prop
  | nil : GlobMatch [] []
  | lit {c : Char} {ts : List RTok} {cs : List Char} :
      GlobMatch ts cs → GlobMatch (RTok.lit c :: ts) (c :: cs)
  | one {c : Char} {ts : List RTok} {cs : List Char} :
      isLineTerm c = false → GlobMatch ts cs → GlobMatch (RTok.anyOne :: ts) (c :: cs)
  | starSkip {ts : List RTok} {cs : List Char} :
      GlobMatch ts cs → GlobMatch (RTok.anyStar :: ts) cs
  | starCons {c : Char} {ts : List RTok} {cs : List Char} :
      isLineTerm c = false → GlobMatch (RTok.anyStar :: ts) cs →
      GlobMatch (RTok.anyStar :: ts) (c :: cs)

end Arn

namespace Deps

/-- One entry of a dependency table, as the per-action record of
`DependencyConfig` in `src/types/index.ts`. -/
structure DepEntry where
  actions : Option (List String)
  dependencies : Option (List String)
  requires : Option (List String)
  soft_requires : Option (List String)
  description : Option String
deriving DecidableEq

/-- A per-service dependency table (`DependencyConfig`); the record keyed
by action id becomes an insertion-ordered association list. -/
structure DependencyConfig where
  service : String
  dependencies : List (String × DepEntry)
deriving DecidableEq

/-- Table entry for an action id (`dependencyConfig.dependencies[action]`). -/
def entryOf (cfg : DependencyConfig) (a : String) : Option DepEntry :=
  lookupA cfg.dependencies a

/-- The `dependencies` field of an action's entry, `[]` when absent. -/
def depsOf (cfg : DependencyConfig) (a : String) : List String :=
  ((entryOf cfg a).bind (·.dependencies)).getD []

/-- The `requires` field of an action's entry, `[]` when absent. -/
def reqsOf (cfg : DependencyConfig) (a : String) : List String :=
  ((entryOf cfg a).bind (·.requires)).getD []

/-- All ids an action's entry queues for processing (its `dependencies`
followed by its `requires`). -/
def targetsOf (cfg : DependencyConfig) (a : String) : List String :=
  depsOf cfg a ++ reqsOf cfg a

/-- What processing an action adds to the result set: its entry's
`actions` list when that field is present, else the action itself. -/
def contribOf (cfg : DependencyConfig) (a : String) : List String :=
  match (entryOf cfg a).bind (·.actions) with
  | some acts => acts
  | none => [a]

/-- Push each id of `ds`, in order, onto the work stack (head = top),
skipping ids already processed, as the `forEach` push loops do. -/
def pushNew (processed : List String) (stack : List String) (ds : List String) :
    List String :=
  ds.foldl (fun st d => if d ∈ processed then st else d :: st) stack

/-- Every id a table can ever push: the union of all entries'
`dependencies` and `requires` fields.  Used only for termination. -/
def allTargetsF (cfg : DependencyConfig) : Finset String :=
  cfg.dependencies.foldr
    (fun p acc =>
      (p.2.dependencies.getD []).toFinset ∪ (p.2.requires.getD []).toFinset ∪ acc) ∅

theorem mem_targets_foldr {l : List (String × DepEntry)} {a : String} {e : DepEntry}
    (he : (a, e) ∈ l) {d : String}
    (hd : d ∈ e.dependencies.getD [] ∨ d ∈ e.requires.getD []) :
    d ∈ l.foldr
      (fun p acc =>
        (p.2.dependencies.getD []).toFinset ∪ (p.2.requires.getD []).toFinset ∪ acc) ∅ := by
  induction l with
  | nil => cases he
  | cons p rest ih =>
    simp only [List.foldr_cons, Finset.mem_union]
    rcases List.mem_cons.mp he with h | h
    · subst h
      simp only [List.mem_toFinset]
      tauto
    · exact Or.inr (ih h)

theorem mem_allTargetsF {cfg : DependencyConfig} {a : String} {e : DepEntry}
    (he : (a, e) ∈ cfg.dependencies) {d : String}
    (hd : d ∈ e.dependencies.getD [] ∨ d ∈ e.requires.getD []) :
    d ∈ allTargetsF cfg :=
  mem_targets_foldr he hd

theorem targetsOf_subset_allTargetsF {cfg : DependencyConfig} {a d : String}
    (h : d ∈ targetsOf cfg a) : d ∈ allTargetsF cfg := by
  unfold targetsOf depsOf reqsOf at h
  cases he : entryOf cfg a with
  | none => simp [he] at h
  | some e =>
    have hmem := lookupA_mem he
    rw [he] at h
    apply mem_allTargetsF hmem
    rcases List.mem_append.mp h with h | h
    · left
      cases harr : e.dependencies with
      | none => simp [harr] at h
      | some l => simpa [harr] using h
    · right
      cases harr : e.requires with
      | none => simp [harr] at h
      | some l => simpa [harr] using h

/-- What one loop iteration adds to the `resolved` set for a popped,
not-yet-processed action: the entry's `actions` when that field is
present, else the action itself, followed by all `requires` entries. -/
def stepResolved (cfg : DependencyConfig) (a : String) (resolved : List String) :
    List String :=
  setAddAll
    (match (entryOf cfg a).bind (·.actions) with
     | some acts => setAddAll resolved acts
     | none => setAdd resolved a)
    (reqsOf cfg a)

/-- What one loop iteration leaves on the work stack: the remaining stack
with the entry's `dependencies` pushed, then its `requires` pushed, each
skipping already-processed ids. -/
def stepStack (cfg : DependencyConfig) (a : String)
    (processed' rest : List String) : List String :=
  pushNew processed' (pushNew processed' rest (depsOf cfg a)) (reqsOf cfg a)

theorem mem_pushNew {processed stack ds : List String} {x : String} :
    x ∈ pushNew processed stack ds ↔ x ∈ stack ∨ (x ∈ ds ∧ x ∉ processed) := by
  induction ds generalizing stack with
  | nil => simp [pushNew]
  | cons d ds ih =>
    show x ∈ pushNew processed (if d ∈ processed then stack else d :: stack) ds ↔ _
    rw [ih]
    by_cases hd : d ∈ processed
    · rw [if_pos hd]
      simp only [List.mem_cons]
      constructor
      · rintro (h | ⟨h1, h2⟩)
        · exact Or.inl h
        · exact Or.inr ⟨Or.inr h1, h2⟩
      · rintro (h | ⟨h1 | h1, h2⟩)
        · exact Or.inl h
        · exact absurd (h1 ▸ hd) h2
        · exact Or.inr ⟨h1, h2⟩
    · rw [if_neg hd]
      simp only [List.mem_cons]
      constructor
      · rintro ((h | h) | ⟨h1, h2⟩)
        · exact Or.inr ⟨Or.inl h, h ▸ hd⟩
        · exact Or.inl h
        · exact Or.inr ⟨Or.inr h1, h2⟩
      · rintro (h | ⟨h1 | h1, h2⟩)
        · exact Or.inl (Or.inr h)
        · exact Or.inl (Or.inl h1)
        · exact Or.inr ⟨h1, h2⟩

theorem mem_stepResolved {cfg : DependencyConfig} {a : String}
    {resolved : List String} {x : String} :
    x ∈ stepResolved cfg a resolved ↔
      x ∈ resolved ∨ x ∈ contribOf cfg a ∨ x ∈ reqsOf cfg a := by
  unfold stepResolved contribOf
  rw [mem_setAddAll]
  cases he : (entryOf cfg a).bind (·.actions) with
  | some acts =>
    rw [mem_setAddAll]
    tauto
  | none =>
    rw [mem_setAdd]
    simp only [List.mem_singleton]
    tauto

theorem nodup_stepResolved {cfg : DependencyConfig} {a : String}
    {resolved : List String} (h : resolved.Nodup) :
    (stepResolved cfg a resolved).Nodup := by
  unfold stepResolved
  apply nodup_setAddAll
  cases (entryOf cfg a).bind (·.actions) with
  | some acts => exact nodup_setAddAll h
  | none => exact nodup_setAdd h

theorem mem_stepStack {cfg : DependencyConfig} {a : String}
    {processed' rest : List String} {x : String} :
    x ∈ stepStack cfg a processed' rest ↔
      x ∈ rest ∨ ((x ∈ depsOf cfg a ∨ x ∈ reqsOf cfg a) ∧ x ∉ processed') := by
  unfold stepStack
  rw [mem_pushNew, mem_pushNew]
  tauto

/-- The `while (toProcess.length > 0)` loop of `resolveDependencies` in
`src/utils/dependencies.ts`, with the work stack's head as its top (JS
pops from the array's end).  Returns the final `resolved` set together
with the final `processed` set. -/
def resolveLoop (cfg : DependencyConfig) :
    List String → List String → List String → List String × List String
  | [], processed, resolved => (resolved, processed)
  | a :: rest, processed, resolved =>
    if a ∈ processed then resolveLoop cfg rest processed resolved
    else
      resolveLoop cfg (stepStack cfg a (a :: processed) rest) (a :: processed)
        (stepResolved cfg a resolved)
termination_by stack processed _ =>
  (((allTargetsF cfg ∪ stack.toFinset) \ processed.toFinset).card, stack.length)
decreasing_by
  · have hsub : (allTargetsF cfg ∪ rest.toFinset) \ processed.toFinset ⊆
        (allTargetsF cfg ∪ (a :: rest).toFinset) \ processed.toFinset := by
      apply Finset.sdiff_subset_sdiff _ (le_refl _)
      intro x hx
      simp only [Finset.mem_union, List.toFinset_cons, Finset.mem_insert] at *
      tauto
    rcases lt_or_eq_of_le (Finset.card_le_card hsub) with h | h
    · exact Prod.Lex.left _ _ h
    · rw [h]
      exact Prod.Lex.right _ (by simp)
  · apply Prod.Lex.left
    apply Finset.card_lt_card
    constructor
    · intro x hx
      simp only [Finset.mem_sdiff, Finset.mem_union, List.mem_toFinset,
        List.toFinset_cons, Finset.mem_insert] at *
      rcases hx with ⟨h1, h2⟩
      refine ⟨?_, fun hc => h2 (Or.inr hc)⟩
      rcases h1 with h1 | h1
      · exact Or.inl h1
      · rcases mem_stepStack.mp h1 with h1 | ⟨h1, _⟩
        · exact Or.inr (Or.inr h1)
        · exact Or.inl (targetsOf_subset_allTargetsF (a := a)
            (List.mem_append.mpr h1))
    · intro hsub
      have ha : a ∈ (allTargetsF cfg ∪ (a :: rest).toFinset) \ processed.toFinset := by
        simp_all
      have := hsub ha
      simp at this

/-- `resolveDependencies` of `src/utils/dependencies.ts`: with a `null`
config return the input unchanged; otherwise run the worklist loop seeded
with the requested actions (JS pops from the end of `[...actions]`, so
the initial head-on-top stack is the reversed list) and return the
resolved set in insertion order. -/
def resolveDependencies (actions : List String) (cfg : Option DependencyConfig) :
    List String :=
  match cfg with
  | none => actions
  | some c => (resolveLoop c actions.reverse [] []).1

end Deps

namespace Core

/-- `AWSAction` of `src/types/index.ts`. -/
structure AWSAction where
  id : String
  name : String
  description : Option String
  category : String
  dependencies : Option (List String)
  requiresARN : Option Bool
deriving DecidableEq

/-- `AWSResource` of `src/types/index.ts`. -/
structure AWSResource where
  id : String
  name : String
  service : String
  icon : Option String
  description : Option String
  arnPattern : Option String
  actions : List AWSAction
deriving DecidableEq

/-- `Selection` of `src/types/index.ts`. -/
structure Selection where
  resourceId : String
  actions : List String
  arn : Option String
deriving DecidableEq

/-- `ARNItem` of `src/types/index.ts`. -/
structure ARNItem where
  arn : String
  service : String
  resourceType : Option String
  displayName : Option String
  description : Option String
  tags : Option (List (String × String))
deriving DecidableEq

/-- A JS `string | string[]` union value. -/
inductive StrOrList where
  | str : String → StrOrList
  | list : List String → StrOrList
deriving DecidableEq

/-- `PolicyStatement` of `src/types/index.ts`.  The optional `Condition`
field is omitted: the engine never constructs one and only copies it
verbatim, so it plays no role in any property considered here. -/
structure PolicyStatement where
  Effect : String
  Action : StrOrList
  Resource : StrOrList
deriving DecidableEq

/-- `IAMPolicy` of `src/types/index.ts`. -/
structure IAMPolicy where
  Version : String
  Statement : List PolicyStatement
deriving DecidableEq

/-- `ValidationResult` of `src/types/index.ts`. -/
structure ValidationResult where
  valid : Bool
  message : Option String
  suggestions : Option (List String)
deriving DecidableEq

/-- The private state of a `PolicyCore` instance: the `resources` and
`selections` maps, the `arnList` array, the (never populated) internal
`dependencies` map, and the optional injected `dependencyResolver`. -/
structure PolicyCoreState where
  resources : List (String × AWSResource)
  selections : List (String × Selection)
  arnList : List ARNItem
  dependencies : List (String × List String)
  dependencyResolver : Option (List String → List String)

/-- `PolicyCore.addResource`. -/
def addResource (st : PolicyCoreState) (r : AWSResource) : PolicyCoreState :=
  { st with
    resources := updateAssoc st.resources r.id r
    selections :=
      if (lookupA st.selections r.id).isSome then st.selections
      else st.selections ++ [(r.id, ⟨r.id, [], none⟩)] }

/-- `PolicyCore.removeResource`. -/
def removeResource (st : PolicyCoreState) (resourceId : String) : PolicyCoreState :=
  { st with
    resources := st.resources.filter (fun p => p.1 ≠ resourceId)
    selections := st.selections.filter (fun p => p.1 ≠ resourceId) }

/-- `PolicyCore.setActions`: replace the selection's action list with the
deduplicated input; silently do nothing when the id has no selection. -/
def setActions (st : PolicyCoreState) (resourceId : String) (actions : List String) :
    PolicyCoreState :=
  match lookupA st.selections resourceId with
  | some sel =>
    { st with selections :=
        updateAssoc st.selections resourceId { sel with actions := dedupFirst actions } }
  | none => st

/-- `PolicyCore.setARN`: silently do nothing when the id has no selection. -/
def setARN (st : PolicyCoreState) (resourceId : String) (arn : String) :
    PolicyCoreState :=
  match lookupA st.selections resourceId with
  | some sel =>
    { st with selections :=
        updateAssoc st.selections resourceId { sel with arn := some arn } }
  | none => st

/-- `PolicyCore.resolveDependencies`: defer to the injected resolver when
one is registered; otherwise seed a set with the actions and add the
internal `dependencies` map's entries for each action. -/
def resolveDependencies (st : PolicyCoreState) (actions : List String) : List String :=
  match st.dependencyResolver with
  | some f => f actions
  | none =>
    let resolved := setAddAll [] actions
    actions.foldl
      (fun acc action =>
        match lookupA st.dependencies action with
        | some deps => setAddAll acc deps
        | none => acc) resolved

/-- Character class `[a-z0-9-]` of the `validateARN` regex. -/
def serviceClass (c : Char) : Bool :=
  decide (('a' ≤ c ∧ c ≤ 'z') ∨ ('0' ≤ c ∧ c ≤ '9') ∨ c = '-')

/-- Character class `[0-9]`. -/
def digitClass (c : Char) : Bool :=
  decide ('0' ≤ c ∧ c ≤ '9')

/-- The `validateARN` shape regex
`^arn:aws:[a-z0-9-]+:[a-z0-9-]*:[0-9]*:.*$` (note: unlike `parseARN`, the
trailing field may be empty, the partition must be literally `aws`, and
the service/region/account fields are class-constrained). -/
def validARNShape (arn : String) : Bool :=
  match Arn.parseFields arn.toList with
  | none => false
  | some f =>
    f.f0 == ['a', 'r', 'n'] && f.f1 == ['a', 'w', 's'] && !f.f2.isEmpty &&
      f.f2.all serviceClass && f.f3.all serviceClass && f.f4.all digitClass &&
      f.rest.all (fun c => !isLineTerm c)

/-- `PolicyCore.validateARN`.  In the mismatch branch the code reads
`arn.split(':')[2]`, which the shape test guarantees to exist. -/
def validateARN (service : String) (arn : String) : ValidationResult :=
  if arn = "" then ⟨false, some "ARN is required", none⟩
  else if validARNShape arn = false then
    ⟨false, some "Invalid ARN format",
      some ["arn:aws:" ++ service ++ ":region:account-id:resource"]⟩
  else if String.mk ((splitCols arn.toList).getD 2 []) ≠ service then
    ⟨false,
      some ("ARN service mismatch. Expected " ++ service ++ ", got " ++
        String.mk ((splitCols arn.toList).getD 2 [])),
      none⟩
  else ⟨true, none, none⟩

/-- Insert a string into an ascending list (code-unit order), used to
model the in-place ascending `Array.prototype.sort()` on action ids. -/
def insertLe (x : String) : List String → List String
  | [] => [x]
  | y :: ys => if x ≤ y then x :: y :: ys else y :: insertLe x ys

/-- `resolvedActions.sort()`: ascending lexicographic sort. -/
def sortJS (l : List String) : List String :=
  l.foldr insertLe []

/-- The action list of a statement, as read by `optimizeStatements`
(`Array.isArray(s.Action) ? s.Action : [s.Action]`). -/
def toActionList : StrOrList → List String
  | StrOrList.str s => [s]
  | StrOrList.list l => l

/-- The grouping key `optimizeStatements` derives from a statement's
resource (`Array.isArray(r) ? r.join(',') : r`). -/
def resourceKeyOf : StrOrList → String
  | StrOrList.str s => s
  | StrOrList.list l => String.intercalate "," l

/-- One iteration of the `selections.forEach` loop in
`PolicyCore.generatePolicy`, acting on the statement map keyed by
`resourceArn + ":" + sortedActions.join(",")` (the `statements` array
shares its entries with the map, so the map alone determines the output,
in insertion order). -/
def firstPassStep (st : PolicyCoreState) (acc : List (String × PolicyStatement))
    (sel : Selection) : List (String × PolicyStatement) :=
  if sel.actions = [] then acc
  else
    match lookupA st.resources sel.resourceId with
    | none => acc
    | some resource =>
      let sorted := sortJS (resolveDependencies st sel.actions)
      let resourceArn :=
        match sel.arn with
        | some a => if a = "" then "*" else a
        | none => "*"
      let key := resourceArn ++ ":" ++ String.intercalate "," sorted
      match lookupA acc key with
      | some existing =>
        match existing.Action with
        | StrOrList.list l =>
          updateAssoc acc key
            { existing with Action := StrOrList.list (dedupFirst (l ++ sorted)) }
        | StrOrList.str _ => acc
      | none =>
        acc ++ [(key,
          { Effect := "Allow"
            Action := StrOrList.list (sorted.map (fun a =>
              if a.toList.contains ':' then a else resource.service ++ ":" ++ a))
            Resource := StrOrList.str resourceArn })]

/-- The statement list `PolicyCore.generatePolicy` builds before the
`optimizeStatements` pass. -/
def firstPass (st : PolicyCoreState) : List PolicyStatement :=
  ((st.selections.map (·.2)).foldl (firstPassStep st) []).map (·.2)

/-- One iteration of the grouping loop in `PolicyCore.optimizeStatements`:
group by the resource key, unioning action lists. -/
def optimizeStep (groups : List (String × PolicyStatement)) (stmt : PolicyStatement) :
    List (String × PolicyStatement) :=
  match lookupA groups (resourceKeyOf stmt.Resource) with
  | some existing =>
    updateAssoc groups (resourceKeyOf stmt.Resource)
      { existing with
        Action := StrOrList.list
          (dedupFirst (toActionList existing.Action ++ toActionList stmt.Action)) }
  | none => groups ++ [(resourceKeyOf stmt.Resource, stmt)]

/-- `PolicyCore.optimizeStatements`: merge all statements with the same
resource key into one, in first-occurrence order. -/
def optimizeStatements (statements : List PolicyStatement) : List PolicyStatement :=
  (statements.foldl optimizeStep []).map (·.2)

/-- `PolicyCore.generatePolicy`. -/
def generatePolicy (st : PolicyCoreState) : IAMPolicy :=
  { Version := "2012-10-17", Statement := optimizeStatements (firstPass st) }

end Core

theorem takeField_append {f r : List Char} (h : ':' ∉ f) :
    takeField (f ++ ':' :: r) = some (f, r) := by
  induction f with
  | nil => simp [takeField]
  | cons c f ih =>
    have hc : c ≠ ':' := fun he => h (he ▸ List.mem_cons_self _ _)
    have hf : ':' ∉ f := fun hm => h (List.mem_cons_of_mem _ hm)
    rw [List.cons_append, takeField, if_neg hc, ih hf]
    rfl

theorem takeField_some {cs f r : List Char} (h : takeField cs = some (f, r)) :
    ':' ∉ f ∧ cs = f ++ ':' :: r := by
  induction cs generalizing f r with
  | nil => simp [takeField] at h
  | cons c rest ih =>
    rw [takeField] at h
    by_cases hc : c = ':'
    · rw [if_pos hc] at h
      cases h
      simp [hc]
    · rw [if_neg hc] at h
      cases hx : takeField rest with
      | none => rw [hx] at h; cases h
      | some p =>
        obtain ⟨f', r'⟩ := p
        rw [hx] at h
        simp only [Option.map_some'] at h
        cases h
        obtain ⟨hn, he⟩ := ih hx
        constructor
        · intro hm
          rcases List.mem_cons.mp hm with hm | hm
          · exact hc hm.symm
          · exact hn hm
        · rw [List.cons_append, ← he]

theorem splitCols_ne_nil (cs : List Char) : splitCols cs ≠ [] := by
  cases cs with
  | nil => simp [splitCols]
  | cons c rest =>
    rw [splitCols]
    split
    · simp
    · cases h : splitCols rest with
      | nil => simp
      | cons f fs => simp

theorem splitCols_append {f r : List Char} (h : ':' ∉ f) :
    splitCols (f ++ ':' :: r) = f :: splitCols r := by
  induction f with
  | nil => simp [splitCols]
  | cons c f ih =>
    have hc : c ≠ ':' := fun he => h (he ▸ List.mem_cons_self _ _)
    have hf : ':' ∉ f := fun hm => h (List.mem_cons_of_mem _ hm)
    rw [List.cons_append, splitCols, if_neg hc, ih hf]

/-- JS `Array.prototype.join(':')`, the inverse of `splitCols`. -/
def joinCols : List (List Char) → List Char
  | [] => []
  | [f] => f
  | f :: fs => f ++ ':' :: joinCols fs

theorem joinCols_splitCols (cs : List Char) : joinCols (splitCols cs) = cs := by
  induction cs with
  | nil => simp [splitCols, joinCols]
  | cons c rest ih =>
    obtain ⟨f, fs, hl⟩ : ∃ f fs, splitCols rest = f :: fs := by
      cases h : splitCols rest with
      | nil => exact absurd h (splitCols_ne_nil rest)
      | cons f fs => exact ⟨_, _, rfl⟩
    rw [splitCols]
    by_cases hc : c = ':'
    · rw [if_pos hc, hl]
      show [] ++ ':' :: joinCols (f :: fs) = c :: rest
      rw [← hl, ih, hc]
      rfl
    · rw [if_neg hc, hl]
      cases fs with
      | nil =>
        show c :: f = c :: rest
        rw [hl] at ih
        simp only [joinCols] at ih
        rw [ih]
      | cons g gs =>
        show (c :: f) ++ ':' :: joinCols (g :: gs) = c :: rest
        rw [hl] at ih
        simp only [joinCols] at ih
        rw [List.cons_append, ih]

theorem parseFields_append {f0 f1 f2 f3 f4 rest : List Char}
    (h0 : ':' ∉ f0) (h1 : ':' ∉ f1) (h2 : ':' ∉ f2) (h3 : ':' ∉ f3) (h4 : ':' ∉ f4) :
    Arn.parseFields
        (f0 ++ ':' :: (f1 ++ ':' :: (f2 ++ ':' :: (f3 ++ ':' :: (f4 ++ ':' :: rest))))) =
      some ⟨f0, f1, f2, f3, f4, rest⟩ := by
  simp only [Arn.parseFields, takeField_append h0, takeField_append h1,
    takeField_append h2, takeField_append h3, takeField_append h4]

theorem parseFields_some {cs : List Char} {f : Arn.RawFields}
    (h : Arn.parseFields cs = some f) :
    (':' ∉ f.f0 ∧ ':' ∉ f.f1 ∧ ':' ∉ f.f2 ∧ ':' ∉ f.f3 ∧ ':' ∉ f.f4) ∧
      cs = f.f0 ++ ':' ::
        (f.f1 ++ ':' :: (f.f2 ++ ':' :: (f.f3 ++ ':' :: (f.f4 ++ ':' :: f.rest)))) := by
  rw [Arn.parseFields] at h
  split at h
  · cases h
  · rename_i p0 r0 heq0
    split at h
    · cases h
    · rename_i p1 r1 heq1
      split at h
      · cases h
      · rename_i p2 r2 heq2
        split at h
        · cases h
        · rename_i p3 r3 heq3
          split at h
          · cases h
          · rename_i p4 r4 heq4
            cases h
            obtain ⟨hn0, he0⟩ := takeField_some heq0
            obtain ⟨hn1, he1⟩ := takeField_some heq1
            obtain ⟨hn2, he2⟩ := takeField_some heq2
            obtain ⟨hn3, he3⟩ := takeField_some heq3
            obtain ⟨hn4, he4⟩ := takeField_some heq4
            exact ⟨⟨hn0, hn1, hn2, hn3, hn4⟩, by rw [he0, he1, he2, he3, he4]⟩

theorem splitCols_of_parseFields {cs : List Char} {f : Arn.RawFields}
    (h : Arn.parseFields cs = some f) :
    splitCols cs = f.f0 :: f.f1 :: f.f2 :: f.f3 :: f.f4 :: splitCols f.rest := by
  obtain ⟨⟨hn0, hn1, hn2, hn3, hn4⟩, he⟩ := parseFields_some h
  rw [he, splitCols_append hn0, splitCols_append hn1, splitCols_append hn2,
    splitCols_append hn3, splitCols_append hn4]

theorem hasSub_nil_sub (l : List Char) : hasSub l [] = true := by
  cases l with
  | nil => rfl
  | cons c rest => rw [hasSub]; simp [List.isPrefixOf]

theorem hasSub_append_left {l sub : List Char} (l' : List Char)
    (h : hasSub l sub = true) : hasSub (l ++ l') sub = true := by
  induction l with
  | nil =>
    rw [hasSub] at h
    have : sub = [] := by simpa using h
    rw [this]
    exact hasSub_nil_sub l'
  | cons c l ih =>
    rw [hasSub] at h
    rw [List.cons_append, hasSub]
    rcases Bool.or_eq_true_iff.mp h with h | h
    · apply Bool.or_eq_true_iff.mpr
      left
      have hp : sub <+: c :: l := by
        have := List.isPrefixOf_iff_prefix.mp h
        exact this
      have : sub <+: (c :: l) ++ l' := hp.trans (List.prefix_append _ _)
      exact List.isPrefixOf_iff_prefix.mpr this
    · exact Bool.or_eq_true_iff.mpr (Or.inr (ih h))

/-- Claim C10: the lightweight structural check `validateARNFormat` and the
full parser `parseARN` accept exactly the same identifier strings: both
regexes demand the same `arn:nonempty:nonempty:any:any:` prefix shape and a
nonempty trailing field, and every string the parser's regex accepts is
decoded to a structured value, never rejected afterwards. -/
theorem validARNFormat_iff_parseARN (arn : String) :
    Arn.validateARNFormat arn = (Arn.parseARN arn).isSome := by
  unfold Arn.validateARNFormat Arn.parseARN
  split
  · rfl
  · rename_i f hfeq
    unfold Arn.decodeFields
    split
    · rename_i hc
      obtain ⟨h1, h2, h3, h4, h5⟩ := hc
      have hL : (f.f0 == ['a', 'r', 'n'] && !f.f1.isEmpty && !f.f2.isEmpty &&
          !f.rest.isEmpty && f.rest.all (fun c => !isLineTerm c)) = true := by
        simp [h1, h2, h3, h4, h5, List.isEmpty_iff]
      rw [hL]
      split
      · rfl
      · split
        · rfl
        · split
          · rfl
          · rfl
    · rename_i hc
      simp only [Option.isSome_none]
      cases hB : (f.f0 == ['a', 'r', 'n'] && !f.f1.isEmpty && !f.f2.isEmpty &&
          !f.rest.isEmpty && f.rest.all (fun c => !isLineTerm c))
      · rfl
      · exfalso
        apply hc
        simp only [Bool.and_eq_true, beq_iff_eq, Bool.not_eq_true', List.isEmpty_iff] at hB
        refine ⟨hB.1.1.1.1, ?_, ?_, ?_, hB.2⟩
        · simpa using hB.1.1.1.2
        · simpa using hB.1.1.2
        · simpa using hB.1.2

theorem toList_mk (l : List Char) : (String.mk l).toList = l := rfl

theorem toList_append (a b : String) : (a ++ b).toList = a.toList ++ b.toList := rfl

theorem string_mk_inj {a b : List Char} (h : String.mk a = String.mk b) : a = b :=
  congrArg String.data h

theorem parseARN_some_inv {s : String} {p : Arn.ParsedARN}
    (h : Arn.parseARN s = some p) :
    ∃ f : Arn.RawFields, Arn.parseFields s.toList = some f ∧
      f.f0 = ['a', 'r', 'n'] ∧ f.f1 ≠ [] ∧ f.f2 ≠ [] ∧ f.rest ≠ [] ∧
      (f.rest.all (fun c => !isLineTerm c) = true) ∧
      p.partition = String.mk f.f1 ∧ p.service = String.mk f.f2 ∧
      p.region = String.mk f.f3 ∧ p.accountId = String.mk f.f4 ∧
      ((f.f2 = ['s', '3'] ∧ p.resource = String.mk f.rest ∧ p.resourceType = none) ∨
       (f.f2 ≠ ['s', '3'] ∧ '/' ∈ f.rest ∧
         p.resource = String.mk ((f.rest.dropWhile (· != '/')).drop 1) ∧
         p.resourceType = some (String.mk (f.rest.takeWhile (· != '/')))) ∨
       (f.f2 ≠ ['s', '3'] ∧ '/' ∉ f.rest ∧ ':' ∈ f.rest ∧
         p.resource = String.mk ((f.rest.dropWhile (· != ':')).drop 1) ∧
         p.resourceType = some (String.mk (f.rest.takeWhile (· != ':')))) ∨
       (f.f2 ≠ ['s', '3'] ∧ '/' ∉ f.rest ∧ ':' ∉ f.rest ∧
         p.resource = String.mk f.rest ∧ p.resourceType = none)) := by
  unfold Arn.parseARN at h
  split at h
  · cases h
  · rename_i f hfeq
    unfold Arn.decodeFields at h
    split at h
    · rename_i hc
      obtain ⟨h1, h2, h3, h4, h5⟩ := hc
      split at h
      · rename_i hs3
        cases h
        exact ⟨f, hfeq, h1, h2, h3, h4, h5, rfl, rfl, rfl, rfl,
          Or.inl ⟨hs3, rfl, rfl⟩⟩
      · rename_i hs3
        split at h
        · rename_i hsl
          cases h
          exact ⟨f, hfeq, h1, h2, h3, h4, h5, rfl, rfl, rfl, rfl,
            Or.inr (Or.inl ⟨hs3, hsl, rfl, rfl⟩)⟩
        · rename_i hsl
          split at h
          · rename_i hco
            cases h
            exact ⟨f, hfeq, h1, h2, h3, h4, h5, rfl, rfl, rfl, rfl,
              Or.inr (Or.inr (Or.inl ⟨hs3, hsl, hco, rfl, rfl⟩))⟩
          · rename_i hco
            cases h
            exact ⟨f, hfeq, h1, h2, h3, h4, h5, rfl, rfl, rfl, rfl,
              Or.inr (Or.inr (Or.inr ⟨hs3, hsl, hco, rfl, rfl⟩))⟩
    · cases h

/-- Claim C6: `parseARN` returns `null` on every string with fewer than 6
colon-delimited top-level fields; for the `s3` service the entire
resource part becomes the resource with no resource-type split (the
joined remainder of the fields after the fifth); and
`parse("arn:aws:s3:::my-bucket")` yields partition `aws`, service `s3`,
empty region and account, resource `my-bucket` and no resource type. -/
theorem parseARN_fields_s3_behavior :
    (∀ s : String, (splitCols s.toList).length < 6 → Arn.parseARN s = none) ∧
    (∀ (s : String) (p : Arn.ParsedARN), Arn.parseARN s = some p →
      p.service = "s3" →
      p.resourceType = none ∧
        p.resource.toList = joinCols ((splitCols s.toList).drop 5)) ∧
    Arn.parseARN "arn:aws:s3:::my-bucket" =
      some ⟨"aws", "s3", "", "", "my-bucket", none⟩ := by
  refine ⟨?_, ?_, by decide⟩
  · intro s hlen
    cases hp : Arn.parseARN s with
    | none => rfl
    | some p =>
      exfalso
      obtain ⟨f, hfeq, -⟩ := parseARN_some_inv hp
      rw [splitCols_of_parseFields hfeq] at hlen
      have := List.length_pos.mpr (splitCols_ne_nil f.rest)
      simp only [List.length_cons] at hlen
      omega
  · intro s p hp hs3
    obtain ⟨f, hfeq, h1, h2, h3, h4, h5, hpart, hserv, hreg, hacc, hcases⟩ :=
      parseARN_some_inv hp
    have hf2 : f.f2 = ['s', '3'] := by
      rw [hserv] at hs3
      exact string_mk_inj hs3
    have hres : p.resource = String.mk f.rest ∧ p.resourceType = none := by
      rcases hcases with ⟨_, hr, ht⟩ | ⟨hne, _⟩ | ⟨hne, _⟩ | ⟨hne, _⟩
      · exact ⟨hr, ht⟩
      · exact absurd hf2 hne
      · exact absurd hf2 hne
      · exact absurd hf2 hne
    refine ⟨hres.2, ?_⟩
    rw [splitCols_of_parseFields hfeq]
    simp only [List.drop_succ_cons, List.drop_zero]
    rw [hres.1, toList_mk, joinCols_splitCols]

theorem parseARN_fields_s3_behavior_witness :
    Arn.parseARN "ab" = none ∧
    ((⟨"aws", "s3", "", "", "b/c", none⟩ : Arn.ParsedARN).resourceType = none ∧
      (⟨"aws", "s3", "", "", "b/c", none⟩ : Arn.ParsedARN).resource.toList =
        joinCols ((splitCols "arn:aws:s3:::b/c".toList).drop 5)) :=
  ⟨parseARN_fields_s3_behavior.1 "ab" (by decide),
   parseARN_fields_s3_behavior.2.1 "arn:aws:s3:::b/c" ⟨"aws", "s3", "", "", "b/c", none⟩
     (by decide) rfl⟩

theorem foldl_no_deps (tbl : List (String × List String)) (A : List String)
    (acc : List String) (h : ∀ a ∈ A, lookupA tbl a = none) :
    A.foldl
      (fun acc action =>
        match lookupA tbl action with
        | some deps => setAddAll acc deps
        | none => acc) acc = acc := by
  induction A generalizing acc with
  | nil => rfl
  | cons a A ih =>
    rw [List.foldl_cons, h a (List.mem_cons_self _ _)]
    exact ih acc (fun b hb => h b (List.mem_cons_of_mem _ hb))

/-- Claim C3 counterexample: with a null dependency config,
`resolveDependencies` returns the input list verbatim, so an input with a
duplicate comes back with the duplicate still present, contradicting the
claim that the result is the input with duplicates removed. -/
theorem resolveDeps_null_config_cex :
    Deps.resolveDependencies ["a", "a"] none = ["a", "a"] ∧
    ¬ (Deps.resolveDependencies ["a", "a"] none).Nodup := by
  exact ⟨rfl, by decide⟩

/-- Claim C3 (amended): with a null dependency config the utils
`resolveDependencies` is the literal identity on the input list (duplicates
preserved, not removed); on an engine with no registered resolver and no
matching entry in its internal dependency table for any requested action,
the engine's `resolveDependencies` returns exactly the input deduplicated:
a duplicate-free list with precisely the input's members, first
occurrences in order. -/
theorem resolveDeps_no_table_behavior :
    (∀ A : List String, Deps.resolveDependencies A none = A) ∧
    (∀ (st : Core.PolicyCoreState) (A : List String),
      st.dependencyResolver = none →
      (∀ a ∈ A, lookupA st.dependencies a = none) →
      Core.resolveDependencies st A = dedupFirst A ∧
        (Core.resolveDependencies st A).Nodup ∧
        (∀ x, x ∈ Core.resolveDependencies st A ↔ x ∈ A)) := by
  constructor
  · intro A
    rfl
  · intro st A hres htab
    have he : Core.resolveDependencies st A = dedupFirst A := by
      unfold Core.resolveDependencies
      rw [hres]
      exact foldl_no_deps st.dependencies A (setAddAll [] A) htab
    refine ⟨he, he ▸ nodup_dedupFirst, fun x => he ▸ mem_dedupFirst⟩

def sampleResource : Core.AWSResource := ⟨"r1", "R1", "s3", none, none, none, []⟩

def sampleState : Core.PolicyCoreState :=
  { resources := [("r1", sampleResource)]
    selections := [("r1", ⟨"r1", ["s3:GetObject"], none⟩)]
    arnList := []
    dependencies := []
    dependencyResolver := none }

theorem resolveDeps_no_table_behavior_witness :
    Deps.resolveDependencies ["x", "y", "x"] none = ["x", "y", "x"] ∧
    Core.resolveDependencies sampleState ["x", "y", "x"] = dedupFirst ["x", "y", "x"] :=
  ⟨resolveDeps_no_table_behavior.1 ["x", "y", "x"],
   (resolveDeps_no_table_behavior.2 sampleState ["x", "y", "x"] rfl (by decide)).1⟩

/-- Claim C9: `setActions` and `setARN` on a resourceId with no selection
return the engine state unchanged, and `removeResource` on an id absent
from both the catalog and the selection map likewise returns the state
unchanged; all three are total functions of the state, so they return
normally (nothing is thrown) and every component of the state — resource
catalog, selections, and identifier catalog — is untouched. -/
theorem engine_unknown_id_noop :
    ∀ (st : Core.PolicyCoreState) (resourceId : String) (actions : List String)
      (arn : String),
      (∀ p ∈ st.selections, p.1 ≠ resourceId) →
      Core.setActions st resourceId actions = st ∧
      Core.setARN st resourceId arn = st ∧
      ((∀ p ∈ st.resources, p.1 ≠ resourceId) →
        Core.removeResource st resourceId = st) := by
  intro st id acts arn hsel
  have hnone : lookupA st.selections id = none := lookupA_eq_none.mpr hsel
  refine ⟨?_, ?_, ?_⟩
  · unfold Core.setActions
    rw [hnone]
  · unfold Core.setARN
    rw [hnone]
  · intro hres
    unfold Core.removeResource
    have h1 : st.resources.filter (fun p => p.1 ≠ id) = st.resources :=
      List.filter_eq_self.mpr (fun p hp => decide_eq_true (hres p hp))
    have h2 : st.selections.filter (fun p => p.1 ≠ id) = st.selections :=
      List.filter_eq_self.mpr (fun p hp => decide_eq_true (hsel p hp))
    rw [h1, h2]

theorem engine_unknown_id_noop_witness :
    Core.setActions sampleState "zz" ["a"] = sampleState ∧
    Core.setARN sampleState "zz" "w" = sampleState ∧
    Core.removeResource sampleState "zz" = sampleState := by
  have h := engine_unknown_id_noop sampleState "zz" ["a"] "w" (by decide)
  exact ⟨h.1, h.2.1, h.2.2 (by decide)⟩

/-- Claim C8: `validateARN` fails with a message containing `required` when
the identifier is empty; fails with a message containing
`Invalid ARN format` plus the templated example suggestion when the
identifier does not match the shape regex
`^arn:aws:[a-z0-9-]+:[a-z0-9-]*:[0-9]*:.*$` (the 5-colon shape with the
literal `aws` domain tag, embedded as `validARNShape`); fails with a
message containing `service mismatch` when the shape matches but the third
colon-delimited field differs from the expected service; and succeeds
otherwise. -/
theorem validateARN_cases (service arn : String) :
    (arn = "" →
      Core.validateARN service arn = ⟨false, some "ARN is required", none⟩ ∧
      strContains "ARN is required" "required" = true) ∧
    (arn ≠ "" → Core.validARNShape arn = false →
      Core.validateARN service arn =
        ⟨false, some "Invalid ARN format",
          some ["arn:aws:" ++ service ++ ":region:account-id:resource"]⟩ ∧
      strContains "Invalid ARN format" "Invalid ARN format" = true) ∧
    (arn ≠ "" → Core.validARNShape arn = true →
      String.mk ((splitCols arn.toList).getD 2 []) ≠ service →
      (Core.validateARN service arn).valid = false ∧
      ∃ m, (Core.validateARN service arn).message = some m ∧
        strContains m "service mismatch" = true) ∧
    (arn ≠ "" → Core.validARNShape arn = true →
      String.mk ((splitCols arn.toList).getD 2 []) = service →
      Core.validateARN service arn = ⟨true, none, none⟩) := by
  refine ⟨?_, ?_, ?_, ?_⟩
  · intro h
    unfold Core.validateARN
    rw [if_pos h]
    exact ⟨rfl, by decide⟩
  · intro hne hshape
    unfold Core.validateARN
    rw [if_neg hne, if_pos hshape]
    exact ⟨rfl, by decide⟩
  · intro hne hshape hmis
    unfold Core.validateARN
    rw [if_neg hne, if_neg (by simp [hshape]), if_pos hmis]
    refine ⟨rfl, ?_⟩
    have hbase : hasSub ("ARN service mismatch. Expected ").toList
        ("service mismatch").toList = true := by decide
    have h1 := hasSub_append_left service.toList hbase
    have h2 := hasSub_append_left (", got ").toList h1
    have h3 := hasSub_append_left
      (String.mk ((splitCols arn.toList).getD 2 [])).toList h2
    exact ⟨_, rfl, h3⟩
  · intro hne hshape hsv
    unfold Core.validateARN
    rw [if_neg hne, if_neg (by simp [hshape]), if_neg (by simpa using hsv)]

theorem validateARN_cases_witness :
    (Core.validateARN "s3" "" = ⟨false, some "ARN is required", none⟩) ∧
    (Core.validateARN "s3" "not-an-arn" =
      ⟨false, some "Invalid ARN format",
        some ["arn:aws:s3:region:account-id:resource"]⟩) ∧
    ((Core.validateARN "s3"
        "arn:aws:ec2:us-east-1:123456789012:instance/i-123").valid = false ∧
      ∃ m, (Core.validateARN "s3"
          "arn:aws:ec2:us-east-1:123456789012:instance/i-123").message = some m ∧
        strContains m "service mismatch" = true) ∧
    Core.validateARN "s3" "arn:aws:s3:::my-bucket/*" = ⟨true, none, none⟩ := by
  refine ⟨?_, ?_, ?_, ?_⟩
  · exact ((validateARN_cases "s3" "").1 rfl).1
  · exact ((validateARN_cases "s3" "not-an-arn").2.1 (by decide) (by decide)).1
  · exact (validateARN_cases "s3"
      "arn:aws:ec2:us-east-1:123456789012:instance/i-123").2.2.1
      (by decide) (by decide) (by decide)
  · exact (validateARN_cases "s3" "arn:aws:s3:::my-bucket/*").2.2.2
      (by decide) (by decide) (by decide)

namespace Arn

theorem matchToks_iff (ts : List RTok) (cs : List Char) :
    matchToks ts cs = true ↔ GlobMatch ts cs := by
  induction ts, cs using matchToks.induct with
  | case1 =>
    simp only [matchToks]
    exact ⟨fun _ => GlobMatch.nil, fun _ => trivial⟩
  | case2 x xs =>
    simp only [matchToks, Bool.false_eq_true, false_iff]
    intro h
    cases h
  | case3 c ts =>
    simp only [matchToks, Bool.false_eq_true, false_iff]
    intro h
    cases h
  | case4 c ts x xs ih =>
    simp only [matchToks, Bool.and_eq_true, beq_iff_eq]
    constructor
    · rintro ⟨rfl, h⟩
      exact GlobMatch.lit (ih.mp h)
    · intro h
      cases h with
      | lit h' => exact ⟨rfl, ih.mpr h'⟩
  | case5 ts =>
    simp only [matchToks, Bool.false_eq_true, false_iff]
    intro h
    cases h
  | case6 ts x xs ih =>
    simp only [matchToks, Bool.and_eq_true, Bool.not_eq_true']
    constructor
    · rintro ⟨h1, h2⟩
      exact GlobMatch.one h1 (ih.mp h2)
    · intro h
      cases h with
      | one h1 h2 => exact ⟨h1, ih.mpr h2⟩
  | case7 ts ih =>
    simp only [matchToks]
    constructor
    · intro h
      exact GlobMatch.starSkip (ih.mp h)
    · intro h
      cases h with
      | starSkip h' => exact ih.mpr h'
  | case8 ts x xs ih1 ih2 =>
    simp only [matchToks, Bool.or_eq_true, Bool.and_eq_true, Bool.not_eq_true']
    constructor
    · rintro (h | ⟨h1, h2⟩)
      · exact GlobMatch.starSkip (ih1.mp h)
      · exact GlobMatch.starCons h1 (ih2.mp h2)
    · intro h
      cases h with
      | starSkip h' => exact Or.inl (ih1.mpr h')
      | starCons h1 h2 => exact Or.inr ⟨h1, ih2.mpr h2⟩

theorem compileGlob_isSome {p : List Char} (h : ∀ c ∈ p, c ∉ unmodeledMeta) :
    ∃ ts, compileGlob p = some ts := by
  induction p with
  | nil => exact ⟨[], rfl⟩
  | cons c p ih =>
    obtain ⟨ts, hts⟩ := ih (fun d hd => h d (List.mem_cons_of_mem _ hd))
    have hc := h c (List.mem_cons_self _ _)
    rw [compileGlob]
    by_cases h1 : c = '*'
    · rw [if_pos h1, hts]
      exact ⟨_, rfl⟩
    · rw [if_neg h1]
      by_cases h2 : c = '?'
      · rw [if_pos h2, hts]
        exact ⟨_, rfl⟩
      · rw [if_neg h2]
        by_cases h3 : c = '.'
        · rw [if_pos h3, hts]
          exact ⟨_, rfl⟩
        · rw [if_neg h3, if_neg hc, hts]
          exact ⟨_, rfl⟩

theorem matchToks_self {p : List Char} {ts : List RTok}
    (hmeta : ∀ c ∈ p, c ∉ unmodeledMeta) (hwild : ∀ c ∈ p, c ≠ '*' ∧ c ≠ '?')
    (hts : compileGlob p = some ts) : matchToks ts p = true := by
  induction p generalizing ts with
  | nil =>
    rw [compileGlob] at hts
    cases hts
    simp [matchToks]
  | cons c p ih =>
    have hw := hwild c (List.mem_cons_self _ _)
    have hm := hmeta c (List.mem_cons_self _ _)
    rw [compileGlob, if_neg hw.1, if_neg hw.2] at hts
    by_cases h3 : c = '.'
    · rw [if_pos h3] at hts
      cases hx : compileGlob p with
      | none => rw [hx] at hts; cases hts
      | some ts' =>
        rw [hx] at hts
        simp only [Option.map_some', Option.some_inj] at hts
        subst hts
        subst h3
        simp only [matchToks, Bool.and_eq_true, Bool.not_eq_true']
        exact ⟨by decide, ih (fun d hd => hmeta d (List.mem_cons_of_mem _ hd))
          (fun d hd => hwild d (List.mem_cons_of_mem _ hd)) hx⟩
    · rw [if_neg h3, if_neg hm] at hts
      cases hx : compileGlob p with
      | none => rw [hx] at hts; cases hts
      | some ts' =>
        rw [hx] at hts
        simp only [Option.map_some', Option.some_inj] at hts
        subst hts
        simp only [matchToks, Bool.and_eq_true, beq_iff_eq]
        exact ⟨trivial, ih (fun d hd => hmeta d (List.mem_cons_of_mem _ hd))
          (fun d hd => hwild d (List.mem_cons_of_mem _ hd)) hx⟩

end Arn

/-- Claim C2 (amended): `matchARNPattern` anchors at both ends and treats
`*` as zero-or-more and `?` as exactly one character, but only over
non-line-terminator characters (the generated `.`/`.*` atoms do not match
newlines); `$` and every other character outside the JS regex
metacharacter set (`^ + ( ) [ ] { } | \`, listed in `unmodeledMeta`) are
matched literally, while `.` in the pattern is passed through unescaped
and matches any single non-line-terminator character.  Hence for every
pattern whose characters avoid `*`, `?` and that metacharacter set,
`matchPattern(x, x)` returns `true`.  The declarative semantics is
`GlobMatch` over the compiled token list. -/
theorem matchARNPattern_glob_semantics (arn pattern : String)
    (hmeta : ∀ c ∈ pattern.toList, c ∉ Arn.unmodeledMeta) :
    (∃ ts, Arn.compileGlob pattern.toList = some ts ∧
      (Arn.matchARNPattern arn pattern = some true ↔ Arn.GlobMatch ts arn.toList)) ∧
    ((∀ c ∈ pattern.toList, c ≠ '*' ∧ c ≠ '?') →
      Arn.matchARNPattern pattern pattern = some true) := by
  obtain ⟨ts, hts⟩ := Arn.compileGlob_isSome hmeta
  constructor
  · refine ⟨ts, hts, ?_⟩
    rw [Arn.matchARNPattern, hts]
    simp only [Option.map_some', Option.some_inj]
    exact Arn.matchToks_iff ts arn.toList
  · intro hwild
    rw [Arn.matchARNPattern, hts]
    simp only [Option.map_some', Option.some_inj]
    exact Arn.matchToks_self hmeta hwild hts

/-- Claim C2 witness: the amended theorem applied at the literal pattern
`abc`, which matches itself. -/
theorem matchARNPattern_glob_semantics_witness :
    Arn.matchARNPattern "abc" "abc" = some true :=
  (matchARNPattern_glob_semantics "abc" "abc" (by decide)).2 (by decide)

/-- Claim C2 counterexample: the code leaves `.` unescaped, so the
wildcard-free pattern `a.b` matches the different identifier `axb`
(anchored literal matching would have to reject it); and `*` compiles to
`.*`, which does not match a newline, so the identifier consisting of one
newline does not match the pattern `*` even though the claim's
zero-or-more-of-any-character reading requires it to. -/
theorem matchARNPattern_literal_cex :
    Arn.matchARNPattern "axb" "a.b" = some true ∧ "axb" ≠ "a.b" ∧
    Arn.matchARNPattern "\n" "*" = some false := by
  refine ⟨?_, by decide, ?_⟩
  · simp [Arn.matchARNPattern, Arn.compileGlob, Arn.matchToks, Arn.unmodeledMeta,
      isLineTerm]
  · simp [Arn.matchARNPattern, Arn.compileGlob, Arn.matchToks, Arn.unmodeledMeta,
      isLineTerm]

/-- Invariant of the grouping fold in `optimizeStatements`. -/
def GroupsInv (done : List Core.PolicyStatement)
    (groups : List (String × Core.PolicyStatement)) : Prop :=
  (groups.map (·.1)).Nodup ∧
  (∀ p ∈ groups, Core.resourceKeyOf p.2.Resource = p.1) ∧
  (∀ p ∈ groups, ∀ a : String,
    a ∈ Core.toActionList p.2.Action ↔
      ∃ s' ∈ done, Core.resourceKeyOf s'.Resource = p.1 ∧
        a ∈ Core.toActionList s'.Action) ∧
  (∀ s' ∈ done, ∃ p ∈ groups, p.1 = Core.resourceKeyOf s'.Resource)

theorem optimizeStep_inv (done : List Core.PolicyStatement)
    (groups : List (String × Core.PolicyStatement)) (stmt : Core.PolicyStatement)
    (h : GroupsInv done groups) :
    GroupsInv (done ++ [stmt]) (Core.optimizeStep groups stmt) := by
  obtain ⟨hnd, hkey, hacts, hcov⟩ := h
  unfold Core.optimizeStep
  cases hl : lookupA groups (Core.resourceKeyOf stmt.Resource) with
  | some existing =>
    show GroupsInv (done ++ [stmt])
      (updateAssoc groups (Core.resourceKeyOf stmt.Resource)
        { existing with
          Action := Core.StrOrList.list
            (dedupFirst (Core.toActionList existing.Action ++
              Core.toActionList stmt.Action)) })
    set k := Core.resourceKeyOf stmt.Resource with hk
    set merged : Core.PolicyStatement :=
      { existing with
        Action := Core.StrOrList.list
          (dedupFirst (Core.toActionList existing.Action ++
            Core.toActionList stmt.Action)) } with hm
    have hmem : (k, existing) ∈ groups := lookupA_mem hl
    have hnd' : ((updateAssoc groups k merged).map (·.1)).Nodup := by
      rw [keys_updateAssoc_of_found hl]
      exact hnd
    have hself : (k, merged) ∈ updateAssoc groups k merged := mem_updateAssoc_self
    have heqk : ∀ p ∈ updateAssoc groups k merged, p.1 = k → p.2 = merged := by
      intro p hp hpk
      have hp' : (k, p.2) ∈ updateAssoc groups k merged := by
        rw [show p = (p.1, p.2) from rfl, hpk] at hp
        exact hp
      exact eq_of_mem_nodup_keys hnd' hp' hself
    refine ⟨hnd', ?_, ?_, ?_⟩
    · intro p hp
      by_cases hpk : p.1 = k
      · rw [hpk, heqk p hp hpk]
        exact hkey _ hmem
      · exact hkey _ (mem_updateAssoc_of_ne hp hpk)
    · intro p hp a
      by_cases hpk : p.1 = k
      · rw [heqk p hp hpk, hpk]
        show a ∈ Core.toActionList (Core.StrOrList.list
          (dedupFirst (Core.toActionList existing.Action ++
            Core.toActionList stmt.Action))) ↔ _
        unfold Core.toActionList
        rw [mem_dedupFirst, List.mem_append]
        constructor
        · rintro (ha | ha)
          · obtain ⟨s', hs1, hs2, hs3⟩ := (hacts _ hmem a).mp ha
            exact ⟨s', List.mem_append_left _ hs1, hs2, hs3⟩
          · exact ⟨stmt, List.mem_append_right _ (List.mem_singleton_self _),
              hk.symm, ha⟩
        · rintro ⟨s', hs1, hs2, hs3⟩
          rcases List.mem_append.mp hs1 with hs1 | hs1
          · exact Or.inl ((hacts _ hmem a).mpr ⟨s', hs1, hs2, hs3⟩)
          · rw [List.mem_singleton.mp hs1] at hs3
            exact Or.inr hs3
      · have hp' := mem_updateAssoc_of_ne hp hpk
        rw [hacts p hp' a]
        constructor
        · rintro ⟨s', hs1, hs2, hs3⟩
          exact ⟨s', List.mem_append_left _ hs1, hs2, hs3⟩
        · rintro ⟨s', hs1, hs2, hs3⟩
          rcases List.mem_append.mp hs1 with hs1 | hs1
          · exact ⟨s', hs1, hs2, hs3⟩
          · rw [List.mem_singleton.mp hs1] at hs2
            exact absurd hs2.symm hpk
    · intro s' hs'
      rcases List.mem_append.mp hs' with hs' | hs'
      · obtain ⟨p, hp1, hp2⟩ := hcov s' hs'
        by_cases hpk : p.1 = k
        · exact ⟨(k, merged), hself, hpk ▸ hp2⟩
        · exact ⟨p, mem_updateAssoc_of_mem_ne hp1 hpk, hp2⟩
      · rw [List.mem_singleton.mp hs']
        exact ⟨(k, merged), hself, hk⟩
  | none =>
    show GroupsInv (done ++ [stmt])
      (groups ++ [(Core.resourceKeyOf stmt.Resource, stmt)])
    set k := Core.resourceKeyOf stmt.Resource with hk
    have hknotin : k ∉ groups.map (·.1) := by
      intro hkmem
      obtain ⟨p, hp, hpe⟩ := List.mem_map.mp hkmem
      exact absurd hpe (lookupA_eq_none.mp hl p hp)
    refine ⟨?_, ?_, ?_, ?_⟩
    · rw [List.map_append]
      rw [List.nodup_append]
      refine ⟨hnd, List.nodup_singleton _, ?_⟩
      intro x hx hx1
      simp only [List.map_cons, List.map_nil, List.mem_singleton] at hx1
      exact hknotin (hx1 ▸ hx)
    · intro p hp
      rcases List.mem_append.mp hp with hp | hp
      · exact hkey p hp
      · rw [List.mem_singleton.mp hp]
    · intro p hp a
      rcases List.mem_append.mp hp with hp | hp
      · have hpk : p.1 ≠ k := fun he => hknotin (he ▸ mem_keys_of_mem hp)
        rw [hacts p hp a]
        constructor
        · rintro ⟨s', hs1, hs2, hs3⟩
          exact ⟨s', List.mem_append_left _ hs1, hs2, hs3⟩
        · rintro ⟨s', hs1, hs2, hs3⟩
          rcases List.mem_append.mp hs1 with hs1 | hs1
          · exact ⟨s', hs1, hs2, hs3⟩
          · rw [List.mem_singleton.mp hs1] at hs2
            exact absurd hs2.symm hpk
      · rw [List.mem_singleton.mp hp]
        constructor
        · intro ha
          exact ⟨stmt, List.mem_append_right _ (List.mem_singleton_self _), hk.symm, ha⟩
        · rintro ⟨s', hs1, hs2, hs3⟩
          rcases List.mem_append.mp hs1 with hs1 | hs1
          · exfalso
            obtain ⟨q, hq1, hq2⟩ := hcov s' hs1
            rw [hs2] at hq2
            have hqk : q.1 = k := hq2
            exact hknotin (hqk ▸ mem_keys_of_mem hq1)
          · rw [List.mem_singleton.mp hs1] at hs3
            exact hs3
    · intro s' hs'
      rcases List.mem_append.mp hs' with hs' | hs'
      · obtain ⟨p, hp1, hp2⟩ := hcov s' hs'
        exact ⟨p, List.mem_append_left _ hp1, hp2⟩
      · rw [List.mem_singleton.mp hs']
        exact ⟨(k, stmt), List.mem_append_right _ (List.mem_singleton_self _), hk⟩

theorem groupsInv_nil : GroupsInv [] [] :=
  ⟨List.nodup_nil, fun p hp => absurd hp (List.not_mem_nil p),
   fun p hp => absurd hp (List.not_mem_nil p),
   fun s hs => absurd hs (List.not_mem_nil s)⟩

theorem foldl_optimize_inv (stmts : List Core.PolicyStatement) :
    ∀ (done : List Core.PolicyStatement) (groups : List (String × Core.PolicyStatement)),
      GroupsInv done groups →
      GroupsInv (done ++ stmts) (stmts.foldl Core.optimizeStep groups) := by
  induction stmts with
  | nil =>
    intro done groups h
    simpa using h
  | cons s stmts ih =>
    intro done groups h
    rw [List.foldl_cons]
    have h2 := ih (done ++ [s]) _ (optimizeStep_inv done groups s h)
    simpa using h2

/-- Claim C1: for every engine state, the document compiled by
`generatePolicy` contains at most one statement per distinct resolved
identifier string (the resource keys of the output are pairwise
distinct), and after the first grouping pass (`firstPass`, keyed by
identifier plus sorted resolved-action list) the second merge pass
(`optimizeStatements`) groups purely by identifier: each output
statement's action set is exactly the union of the action sets of all
first-pass statements aimed at its identifier — even when contributed by
selections with different, non-overlapping action sets — and every
first-pass identifier is represented. -/
theorem compile_merges_statements_by_identifier (st : Core.PolicyCoreState) :
    ((Core.generatePolicy st).Statement.map
        (fun s => Core.resourceKeyOf s.Resource)).Nodup ∧
    (∀ s ∈ (Core.generatePolicy st).Statement, ∀ a : String,
      a ∈ Core.toActionList s.Action ↔
        ∃ s' ∈ Core.firstPass st,
          Core.resourceKeyOf s'.Resource = Core.resourceKeyOf s.Resource ∧
          a ∈ Core.toActionList s'.Action) ∧
    (∀ s' ∈ Core.firstPass st, ∃ s ∈ (Core.generatePolicy st).Statement,
      Core.resourceKeyOf s.Resource = Core.resourceKeyOf s'.Resource) := by
  have hG := foldl_optimize_inv (Core.firstPass st) [] [] groupsInv_nil
  rw [List.nil_append] at hG
  obtain ⟨hnd, hkey, hacts, hcov⟩ := hG
  have hstmts : (Core.generatePolicy st).Statement =
      ((Core.firstPass st).foldl Core.optimizeStep []).map (·.2) := rfl
  refine ⟨?_, ?_, ?_⟩
  · rw [hstmts, List.map_map]
    have he : ((Core.firstPass st).foldl Core.optimizeStep []).map
        ((fun s => Core.resourceKeyOf s.Resource) ∘ (·.2)) =
      ((Core.firstPass st).foldl Core.optimizeStep []).map (·.1) :=
      List.map_congr_left (fun p hp => hkey p hp)
    rw [he]
    exact hnd
  · intro s hs a
    rw [hstmts] at hs
    obtain ⟨p, hp, hpe⟩ := List.mem_map.mp hs
    rw [← hpe, hacts p hp a, hkey p hp]
  · intro s' hs'
    obtain ⟨p, hp, hpe⟩ := hcov s' hs'
    refine ⟨p.2, ?_, ?_⟩
    · rw [hstmts]
      exact List.mem_map_of_mem _ hp
    · rw [hkey p hp, hpe]

def mergeState : Core.PolicyCoreState :=
  { resources :=
      [("r1", ⟨"r1", "R1", "s3", none, none, none, []⟩),
       ("r2", ⟨"r2", "R2", "s3", none, none, none, []⟩)]
    selections :=
      [("r1", ⟨"r1", ["s3:GetObject"], some "arn:aws:s3:::b"⟩),
       ("r2", ⟨"r2", ["s3:PutObject"], some "arn:aws:s3:::b"⟩)]
    arnList := []
    dependencies := []
    dependencyResolver := none }

theorem compile_merges_statements_by_identifier_witness :
    ((Core.generatePolicy mergeState).Statement.map
        (fun s => Core.resourceKeyOf s.Resource)).Nodup ∧
    ("s3:PutObject" ∈ Core.toActionList
        (Core.StrOrList.list ["s3:GetObject", "s3:PutObject"]) ↔
      ∃ s' ∈ Core.firstPass mergeState,
        Core.resourceKeyOf s'.Resource =
          Core.resourceKeyOf (Core.StrOrList.str "arn:aws:s3:::b") ∧
        "s3:PutObject" ∈ Core.toActionList s'.Action) := by
  have h := compile_merges_statements_by_identifier mergeState
  refine ⟨h.1, ?_⟩
  have h2 := h.2.1
    ⟨"Allow", Core.StrOrList.list ["s3:GetObject", "s3:PutObject"],
      Core.StrOrList.str "arn:aws:s3:::b"⟩ (by decide) "s3:PutObject"
  exact h2

namespace Deps

theorem loop_resolved_mono (cfg : DependencyConfig)
    (stack processed resolved : List String) (x : String) (hx : x ∈ resolved) :
    x ∈ (resolveLoop cfg stack processed resolved).1 := by
  induction stack, processed, resolved using resolveLoop.induct cfg with
  | case1 processed resolved => simpa [resolveLoop] using hx
  | case2 a rest processed resolved hmem ih =>
    rw [resolveLoop, if_pos hmem]
    exact ih hx
  | case3 a rest processed resolved hmem ih =>
    rw [resolveLoop, if_neg hmem]
    exact ih (mem_stepResolved.mpr (Or.inl hx))

theorem loop_processed_mono (cfg : DependencyConfig)
    (stack processed resolved : List String) (x : String) (hx : x ∈ processed) :
    x ∈ (resolveLoop cfg stack processed resolved).2 := by
  induction stack, processed, resolved using resolveLoop.induct cfg with
  | case1 processed resolved => simpa [resolveLoop] using hx
  | case2 a rest processed resolved hmem ih =>
    rw [resolveLoop, if_pos hmem]
    exact ih hx
  | case3 a rest processed resolved hmem ih =>
    rw [resolveLoop, if_neg hmem]
    exact ih (List.mem_cons_of_mem _ hx)

theorem loop_stack_processed (cfg : DependencyConfig)
    (stack processed resolved : List String) (x : String) (hx : x ∈ stack) :
    x ∈ (resolveLoop cfg stack processed resolved).2 := by
  induction stack, processed, resolved using resolveLoop.induct cfg with
  | case1 processed resolved => cases hx
  | case2 a rest processed resolved hmem ih =>
    rw [resolveLoop, if_pos hmem]
    rcases List.mem_cons.mp hx with h | h
    · exact loop_processed_mono cfg rest processed resolved x (h ▸ hmem)
    · exact ih h
  | case3 a rest processed resolved hmem ih =>
    rw [resolveLoop, if_neg hmem]
    rcases List.mem_cons.mp hx with h | h
    · exact loop_processed_mono cfg _ _ _ x (h ▸ List.mem_cons_self _ _)
    · by_cases hxp : x ∈ a :: processed
      · exact loop_processed_mono cfg _ _ _ x hxp
      · exact ih (mem_stepStack.mpr (Or.inl h))

theorem loop_resolved_nodup (cfg : DependencyConfig)
    (stack processed resolved : List String) (h : resolved.Nodup) :
    ((resolveLoop cfg stack processed resolved).1).Nodup := by
  induction stack, processed, resolved using resolveLoop.induct cfg with
  | case1 processed resolved => simpa [resolveLoop] using h
  | case2 a rest processed resolved hmem ih =>
    rw [resolveLoop, if_pos hmem]
    exact ih h
  | case3 a rest processed resolved hmem ih =>
    rw [resolveLoop, if_neg hmem]
    exact ih (nodup_stepResolved h)

end Deps

namespace Deps

theorem loop_closed (cfg : DependencyConfig)
    (stack processed resolved : List String)
    (hinv : ∀ x ∈ processed, ∀ d ∈ targetsOf cfg x, d ∈ processed ∨ d ∈ stack) :
    ∀ x ∈ (resolveLoop cfg stack processed resolved).2, ∀ d ∈ targetsOf cfg x,
      d ∈ (resolveLoop cfg stack processed resolved).2 := by
  induction stack, processed, resolved using resolveLoop.induct cfg with
  | case1 processed resolved =>
    rw [resolveLoop]
    intro x hx d hd
    rcases hinv x hx d hd with h | h
    · exact h
    · cases h
  | case2 a rest processed resolved hmem ih =>
    rw [resolveLoop, if_pos hmem]
    apply ih
    intro x hx d hd
    rcases hinv x hx d hd with h | h
    · exact Or.inl h
    · rcases List.mem_cons.mp h with h | h
      · exact Or.inl (h ▸ hmem)
      · exact Or.inr h
  | case3 a rest processed resolved hmem ih =>
    rw [resolveLoop, if_neg hmem]
    apply ih
    intro x hx d hd
    rcases List.mem_cons.mp hx with hx | hx
    · by_cases hdp : d ∈ a :: processed
      · exact Or.inl hdp
      · refine Or.inr (mem_stepStack.mpr (Or.inr ⟨?_, hdp⟩))
        rw [hx] at hd
        exact List.mem_append.mp hd
    · rcases hinv x hx d hd with h | h
      · exact Or.inl (List.mem_cons_of_mem _ h)
      · rcases List.mem_cons.mp h with h | h
        · exact Or.inl (h ▸ List.mem_cons_self _ _)
        · by_cases hdp : d ∈ a :: processed
          · exact Or.inl hdp
          · exact Or.inr (mem_stepStack.mpr (Or.inl h))

theorem loop_reqs_resolved (cfg : DependencyConfig)
    (stack processed resolved : List String)
    (hinv : ∀ x ∈ processed, ∀ d ∈ reqsOf cfg x, d ∈ resolved) :
    ∀ x ∈ (resolveLoop cfg stack processed resolved).2, ∀ d ∈ reqsOf cfg x,
      d ∈ (resolveLoop cfg stack processed resolved).1 := by
  induction stack, processed, resolved using resolveLoop.induct cfg with
  | case1 processed resolved =>
    rw [resolveLoop]
    exact hinv
  | case2 a rest processed resolved hmem ih =>
    rw [resolveLoop, if_pos hmem]
    exact ih hinv
  | case3 a rest processed resolved hmem ih =>
    rw [resolveLoop, if_neg hmem]
    apply ih
    intro x hx d hd
    rcases List.mem_cons.mp hx with hx | hx
    · exact mem_stepResolved.mpr (Or.inr (Or.inr (hx ▸ hd)))
    · exact mem_stepResolved.mpr (Or.inl (hinv x hx d hd))

theorem loop_contrib_resolved (cfg : DependencyConfig)
    (stack processed resolved : List String)
    (hinv : ∀ x ∈ processed, ∀ d ∈ contribOf cfg x, d ∈ resolved) :
    ∀ x ∈ (resolveLoop cfg stack processed resolved).2, ∀ d ∈ contribOf cfg x,
      d ∈ (resolveLoop cfg stack processed resolved).1 := by
  induction stack, processed, resolved using resolveLoop.induct cfg with
  | case1 processed resolved =>
    rw [resolveLoop]
    exact hinv
  | case2 a rest processed resolved hmem ih =>
    rw [resolveLoop, if_pos hmem]
    exact ih hinv
  | case3 a rest processed resolved hmem ih =>
    rw [resolveLoop, if_neg hmem]
    apply ih
    intro x hx d hd
    rcases List.mem_cons.mp hx with hx | hx
    · exact mem_stepResolved.mpr (Or.inr (Or.inl (hx ▸ hd)))
    · exact mem_stepResolved.mpr (Or.inl (hinv x hx d hd))

theorem loop_resolved_source (cfg : DependencyConfig)
    (stack processed resolved : List String) :
    ∀ x ∈ (resolveLoop cfg stack processed resolved).1,
      x ∈ resolved ∨ ∃ y, y ∈ (resolveLoop cfg stack processed resolved).2 ∧
        (x ∈ contribOf cfg y ∨ x ∈ reqsOf cfg y) := by
  induction stack, processed, resolved using resolveLoop.induct cfg with
  | case1 processed resolved =>
    rw [resolveLoop]
    intro x hx
    exact Or.inl hx
  | case2 a rest processed resolved hmem ih =>
    rw [resolveLoop, if_pos hmem]
    exact ih
  | case3 a rest processed resolved hmem ih =>
    rw [resolveLoop, if_neg hmem]
    intro x hx
    rcases ih x hx with h | ⟨y, hy, h2⟩
    · rcases mem_stepResolved.mp h with h | h
      · exact Or.inl h
      · refine Or.inr ⟨a, ?_, h⟩
        exact loop_processed_mono cfg _ _ _ a (List.mem_cons_self _ _)
    · exact Or.inr ⟨y, hy, h2⟩

/-- Reachability from a seed set along the `dependencies`/`requires`
edges of a table: the ids the worklist eventually processes. -/
inductive ReachFrom (cfg : DependencyConfig) (A : List String) : String → Prop
  | base {x : String} : x ∈ A → ReachFrom cfg A x
  | step {x d : String} : ReachFrom cfg A x → d ∈ targetsOf cfg x → ReachFrom cfg A d

theorem loop_processed_reaches (cfg : DependencyConfig)
    (stack processed resolved : List String) (A : List String)
    (hstack : ∀ x ∈ stack, ReachFrom cfg A x)
    (hproc : ∀ x ∈ processed, ReachFrom cfg A x) :
    ∀ x ∈ (resolveLoop cfg stack processed resolved).2, ReachFrom cfg A x := by
  induction stack, processed, resolved using resolveLoop.induct cfg with
  | case1 processed resolved =>
    rw [resolveLoop]
    exact hproc
  | case2 a rest processed resolved hmem ih =>
    rw [resolveLoop, if_pos hmem]
    exact ih (fun x hx => hstack x (List.mem_cons_of_mem _ hx)) hproc
  | case3 a rest processed resolved hmem ih =>
    rw [resolveLoop, if_neg hmem]
    apply ih
    · intro x hx
      rcases mem_stepStack.mp hx with hx | ⟨hx, -⟩
      · exact hstack x (List.mem_cons_of_mem _ hx)
      · exact ReachFrom.step (hstack a (List.mem_cons_self _ _))
          (List.mem_append.mpr hx)
    · intro x hx
      rcases List.mem_cons.mp hx with hx | hx
      · exact hx ▸ hstack a (List.mem_cons_self _ _)
      · exact hproc x hx

/-- The shape every dependency table shipped with the repository has:
each entry's `actions` field is absent or contains exactly the entry's
own action id. -/
def SelfActing (cfg : DependencyConfig) : Prop :=
  ∀ p ∈ cfg.dependencies, p.2.actions = none ∨ p.2.actions = some [p.1]

theorem contribOf_self {cfg : DependencyConfig} {a : String} (h : SelfActing cfg) :
    contribOf cfg a = [a] := by
  unfold contribOf
  cases he : entryOf cfg a with
  | none => rfl
  | some e =>
    rcases h (a, e) (lookupA_mem he) with h1 | h1
    · have h2 : e.actions = none := h1
      simp [h2]
    · have h2 : e.actions = some [a] := h1
      simp [h2]

end Deps

namespace Deps

theorem resolve_mem_iff (cfg : DependencyConfig) (A : List String)
    (h : SelfActing cfg) (x : String) :
    x ∈ resolveDependencies A (some cfg) ↔ ReachFrom cfg A x := by
  show x ∈ (resolveLoop cfg A.reverse [] []).1 ↔ _
  constructor
  · intro hx
    rcases loop_resolved_source cfg A.reverse [] [] x hx with h1 | ⟨y, hy, h2⟩
    · cases h1
    · have hyr : ReachFrom cfg A y :=
        loop_processed_reaches cfg A.reverse [] [] A
          (fun z hz => ReachFrom.base (List.mem_reverse.mp hz))
          (fun z hz => absurd hz (List.not_mem_nil z)) y hy
      rcases h2 with h2 | h2
      · rw [contribOf_self h] at h2
        rw [List.mem_singleton.mp h2]
        exact hyr
      · exact ReachFrom.step hyr (List.mem_append.mpr (Or.inr h2))
  · intro hx
    have hP : ∀ z, ReachFrom cfg A z → z ∈ (resolveLoop cfg A.reverse [] []).2 := by
      intro z hz
      induction hz with
      | base hz1 =>
        exact loop_stack_processed cfg _ _ _ _ (List.mem_reverse.mpr hz1)
      | step hz1 hz2 ihz =>
        exact loop_closed cfg A.reverse [] []
          (fun w hw => absurd hw (List.not_mem_nil w)) _ ihz _ hz2
    have hc := loop_contrib_resolved cfg A.reverse [] []
      (fun w hw => absurd hw (List.not_mem_nil w)) x (hP x hx)
    apply hc
    rw [contribOf_self h]
    exact List.mem_singleton_self x

end Deps

def cexCfg : Deps.DependencyConfig :=
  ⟨"svc",
    [("a", ⟨some ["b"], none, none, none, none⟩),
     ("b", ⟨some ["c"], none, none, none, none⟩)]⟩

/-- Claim C4 counterexample: with a table whose entry for `a` substitutes
the different action `b` (`actions: [b]`) and whose entry for `b`
substitutes `c`, resolving `[a]` yields `{b}` but resolving again yields
`{c}`: the element `b` is in the first result and not in the second, so
`resolveDependencies` is not idempotent as a set transformer over every
dependency table. -/
theorem resolveDeps_not_idempotent_cex :
    "b" ∈ Deps.resolveDependencies ["a"] (some cexCfg) ∧
    "b" ∉ Deps.resolveDependencies
      (Deps.resolveDependencies ["a"] (some cexCfg)) (some cexCfg) := by
  constructor <;>
    simp [Deps.resolveDependencies, Deps.resolveLoop, Deps.stepResolved,
      Deps.stepStack, Deps.pushNew, Deps.entryOf, Deps.depsOf, Deps.reqsOf,
      cexCfg, lookupA, setAdd, setAddAll]

/-- Claim C4 (amended): for every dependency table in which each entry's
`actions` field is absent or contains exactly the entry's own id — the
shape of every table shipped with the repository — `resolveDependencies`
is idempotent as a set transformer:
`resolveDependencies(resolveDependencies(A))` equals
`resolveDependencies(A)` when both are compared as sets. -/
theorem resolveDeps_idempotent_selfacting (cfg : Deps.DependencyConfig)
    (A : List String) (hs : Deps.SelfActing cfg) :
    ∀ x, x ∈ Deps.resolveDependencies
        (Deps.resolveDependencies A (some cfg)) (some cfg) ↔
      x ∈ Deps.resolveDependencies A (some cfg) := by
  intro x
  rw [Deps.resolve_mem_iff cfg _ hs, Deps.resolve_mem_iff cfg A hs]
  constructor
  · intro hx
    induction hx with
    | base h1 => exact (Deps.resolve_mem_iff cfg A hs _).mp h1
    | step h1 h2 ih => exact Deps.ReachFrom.step ih h2
  · intro hx
    induction hx with
    | base h1 =>
      exact Deps.ReachFrom.base ((Deps.resolve_mem_iff cfg A hs _).mpr
        (Deps.ReachFrom.base h1))
    | step h1 h2 ih => exact Deps.ReachFrom.step ih h2

def s3Table : Deps.DependencyConfig :=
  ⟨"s3",
    [("s3:ListBucket", ⟨some ["s3:ListBucket"], some [], none, none, none⟩),
     ("s3:GetBucketLocation",
       ⟨some ["s3:GetBucketLocation"], some [], none, none, none⟩),
     ("s3:GetObject", ⟨some ["s3:GetObject"],
        some ["s3:ListBucket", "s3:GetBucketLocation"], none, none, none⟩)]⟩

theorem resolveDeps_idempotent_selfacting_witness :
    "s3:ListBucket" ∈ Deps.resolveDependencies
        (Deps.resolveDependencies ["s3:GetObject"] (some s3Table)) (some s3Table) ↔
      "s3:ListBucket" ∈ Deps.resolveDependencies ["s3:GetObject"] (some s3Table) :=
  resolveDeps_idempotent_selfacting s3Table ["s3:GetObject"]
    (by unfold Deps.SelfActing; decide) "s3:ListBucket"

/-- Claim C5: for every dependency table and every requested action list,
`resolveDependencies` terminates — in this embedding it is a total
function whose worklist recursion is justified by a finite measure — and
returns a (finite) duplicate-free list; and when the table contains a
`requires` cycle between two actions (each requiring the other) and one
of them is requested, the result contains both. -/
theorem resolveDeps_cycle_terminates_nodup :
    (∀ (cfg : Deps.DependencyConfig) (A : List String),
      (Deps.resolveDependencies A (some cfg)).Nodup) ∧
    (∀ (cfg : Deps.DependencyConfig) (A : List String) (a b : String)
      (e₁ e₂ : Deps.DepEntry),
      Deps.entryOf cfg a = some e₁ → Deps.entryOf cfg b = some e₂ →
      b ∈ e₁.requires.getD [] → a ∈ e₂.requires.getD [] → a ∈ A →
      a ∈ Deps.resolveDependencies A (some cfg) ∧
      b ∈ Deps.resolveDependencies A (some cfg)) := by
  constructor
  · intro cfg A
    exact Deps.loop_resolved_nodup cfg A.reverse [] [] List.nodup_nil
  · intro cfg A a b e₁ e₂ he1 he2 hb ha hmem
    have hra : b ∈ Deps.reqsOf cfg a := by
      unfold Deps.reqsOf
      rw [he1]
      exact hb
    have hrb : a ∈ Deps.reqsOf cfg b := by
      unfold Deps.reqsOf
      rw [he2]
      exact ha
    have haP : a ∈ (Deps.resolveLoop cfg A.reverse [] []).2 :=
      Deps.loop_stack_processed cfg _ _ _ a (List.mem_reverse.mpr hmem)
    have hbP : b ∈ (Deps.resolveLoop cfg A.reverse [] []).2 :=
      Deps.loop_closed cfg A.reverse [] []
        (fun w hw => absurd hw (List.not_mem_nil w)) a haP b
        (List.mem_append.mpr (Or.inr hra))
    constructor
    · exact Deps.loop_reqs_resolved cfg A.reverse [] []
        (fun w hw => absurd hw (List.not_mem_nil w)) b hbP a hrb
    · exact Deps.loop_reqs_resolved cfg A.reverse [] []
        (fun w hw => absurd hw (List.not_mem_nil w)) a haP b hra

def cycleTable : Deps.DependencyConfig :=
  ⟨"svc",
    [("A", ⟨none, none, some ["B"], none, none⟩),
     ("B", ⟨none, none, some ["A"], none, none⟩)]⟩

theorem resolveDeps_cycle_terminates_nodup_witness :
    (Deps.resolveDependencies ["A"] (some cycleTable)).Nodup ∧
    "A" ∈ Deps.resolveDependencies ["A"] (some cycleTable) ∧
    "B" ∈ Deps.resolveDependencies ["A"] (some cycleTable) := by
  refine ⟨resolveDeps_cycle_terminates_nodup.1 cycleTable ["A"], ?_, ?_⟩
  · exact (resolveDeps_cycle_terminates_nodup.2 cycleTable ["A"] "A" "B"
      ⟨none, none, some ["B"], none, none⟩ ⟨none, none, some ["A"], none, none⟩
      rfl rfl (by decide) (by decide) (by decide)).1
  · exact (resolveDeps_cycle_terminates_nodup.2 cycleTable ["A"] "A" "B"
      ⟨none, none, some ["B"], none, none⟩ ⟨none, none, some ["A"], none, none⟩
      rfl rfl (by decide) (by decide) (by decide)).2

theorem takeWhile_append_first {c : Char} {t r : List Char} (h : c ∉ t) :
    (t ++ c :: r).takeWhile (· != c) = t ∧
    (t ++ c :: r).dropWhile (· != c) = c :: r := by
  induction t with
  | nil => simp [List.takeWhile, List.dropWhile]
  | cons x t ih =>
    have hx : x ≠ c := fun he => h (he ▸ List.mem_cons_self _ _)
    have ht : c ∉ t := fun hm => h (List.mem_cons_of_mem _ hm)
    obtain ⟨ih1, ih2⟩ := ih ht
    constructor
    · rw [List.cons_append, List.takeWhile_cons]
      simp [hx, ih1]
    · rw [List.cons_append, List.dropWhile_cons]
      simp [hx, ih2]

theorem split_at_first {c : Char} {l : List Char} (h : c ∈ l) :
    c ∉ l.takeWhile (· != c) ∧
    l = l.takeWhile (· != c) ++ c :: (l.dropWhile (· != c)).drop 1 := by
  constructor
  · intro hc
    have := List.mem_takeWhile_imp hc
    simp at this
  · obtain ⟨tl, htl⟩ : ∃ tl, l.dropWhile (· != c) = c :: tl := by
      induction l with
      | nil => cases h
      | cons x l ih =>
        rw [List.dropWhile_cons]
        by_cases hx : x = c
        · simp [hx]
        · have hc : c ∈ l := by
            rcases List.mem_cons.mp h with h1 | h1
            · exact absurd h1.symm hx
            · exact h1
          simp only [bne_iff_ne, ne_eq, hx, not_false_eq_true, if_true]
          exact ih hc
    conv_lhs => rw [← List.takeWhile_append_dropWhile (p := (· != c)) (l := l)]
    rw [htl]
    simp

theorem build_toList (s1 s2 s3 s4 rp : String) :
    ("arn:" ++ s1 ++ ":" ++ s2 ++ ":" ++ s3 ++ ":" ++ s4 ++ ":" ++ rp).toList =
      ['a', 'r', 'n'] ++ ':' :: (s1.toList ++ ':' :: (s2.toList ++ ':' ::
        (s3.toList ++ ':' :: (s4.toList ++ ':' :: rp.toList)))) := by
  have h1 : "arn:".toList = ['a', 'r', 'n', ':'] := rfl
  have h2 : ":".toList = [':'] := rfl
  simp only [toList_append, h1, h2, List.append_assoc, List.cons_append,
    List.nil_append, List.singleton_append]

theorem slash_toList (t r : List Char) :
    (String.mk t ++ "/" ++ String.mk r).toList = t ++ '/' :: r := by
  have h1 : "/".toList = ['/'] := rfl
  simp only [toList_append, toList_mk, h1, List.append_assoc, List.singleton_append]

/-- Claim C7 (amended): for every identifier string on which `parseARN`
succeeds and whose parsed `resourceType` is not the empty string,
re-formatting the parsed structure and parsing again reproduces the same
structured value: `parse(format(parse(x))) = parse(x)`. -/
theorem parse_format_roundtrip (x : String) (p : Arn.ParsedARN)
    (hp : Arn.parseARN x = some p) (ht : p.resourceType ≠ some "") :
    Arn.parseARN (Arn.formatARN p) = some p := by
  obtain ⟨pp, ps, pr, pa, pres, prt⟩ := p
  obtain ⟨f, hfeq, h1, h2, h3, h4, h5, hpart, hserv, hreg, hacc, hcases⟩ :=
    parseARN_some_inv hp
  obtain ⟨⟨hn0, hn1, hn2, hn3, hn4⟩, -⟩ := parseFields_some hfeq
  simp only at hpart hserv hreg hacc ht
  subst hpart hserv hreg hacc
  rcases hcases with ⟨hs3, hres, hrt⟩ | ⟨hns3, hsl, hres, hrt⟩ |
    ⟨hns3, hnsl, hco, hres, hrt⟩ | ⟨hns3, hnsl, hnco, hres, hrt⟩
  · -- s3 branch: whole rest is the resource, no resource type
    simp only at hres hrt
    subst hres hrt
    have hfl : (Arn.formatARN
        ⟨String.mk f.f1, String.mk f.f2, String.mk f.f3, String.mk f.f4,
          String.mk f.rest, none⟩).toList =
        ['a', 'r', 'n'] ++ ':' :: (f.f1 ++ ':' :: (f.f2 ++ ':' ::
          (f.f3 ++ ':' :: (f.f4 ++ ':' :: f.rest)))) := by
      show ("arn:" ++ String.mk f.f1 ++ ":" ++ String.mk f.f2 ++ ":" ++
        String.mk f.f3 ++ ":" ++ String.mk f.f4 ++ ":" ++ String.mk f.rest).toList = _
      rw [build_toList]
      simp only [toList_mk]
    unfold Arn.parseARN
    rw [hfl, parseFields_append (by decide) hn1 hn2 hn3 hn4]
    show Arn.decodeFields ⟨['a', 'r', 'n'], f.f1, f.f2, f.f3, f.f4, f.rest⟩ = _
    unfold Arn.decodeFields
    rw [if_pos ⟨rfl, h2, h3, h4, h5⟩, if_pos hs3]
  · -- slash branch
    simp only at hres hrt
    subst hres hrt
    obtain ⟨hnotin, hdecomp⟩ := split_at_first hsl
    have htne : f.rest.takeWhile (· != '/') ≠ [] := by
      intro he
      exact ht (by rw [he])
    have hmkne : String.mk (f.rest.takeWhile (· != '/')) ≠ "" := by
      intro he
      exact htne (string_mk_inj he)
    have hrp : Arn.formatResourcePart
        ⟨String.mk f.f1, String.mk f.f2, String.mk f.f3, String.mk f.f4,
          String.mk ((f.rest.dropWhile (· != '/')).drop 1),
          some (String.mk (f.rest.takeWhile (· != '/')))⟩ =
        String.mk (f.rest.takeWhile (· != '/')) ++ "/" ++
          String.mk ((f.rest.dropWhile (· != '/')).drop 1) := by
      show (if String.mk (f.rest.takeWhile (· != '/')) = "" then
          String.mk ((f.rest.dropWhile (· != '/')).drop 1)
        else String.mk (f.rest.takeWhile (· != '/')) ++ "/" ++
          String.mk ((f.rest.dropWhile (· != '/')).drop 1)) = _
      rw [if_neg hmkne]
    have hfl : (Arn.formatARN
        ⟨String.mk f.f1, String.mk f.f2, String.mk f.f3, String.mk f.f4,
          String.mk ((f.rest.dropWhile (· != '/')).drop 1),
          some (String.mk (f.rest.takeWhile (· != '/')))⟩).toList =
        ['a', 'r', 'n'] ++ ':' :: (f.f1 ++ ':' :: (f.f2 ++ ':' ::
          (f.f3 ++ ':' :: (f.f4 ++ ':' ::
            (f.rest.takeWhile (· != '/') ++ '/' ::
              (f.rest.dropWhile (· != '/')).drop 1))))) := by
      rw [Arn.formatARN, hrp]
      rw [build_toList]
      simp only [toList_mk, slash_toList]
    unfold Arn.parseARN
    rw [hfl, parseFields_append (by decide) hn1 hn2 hn3 hn4]
    show Arn.decodeFields ⟨['a', 'r', 'n'], f.f1, f.f2, f.f3, f.f4,
      f.rest.takeWhile (· != '/') ++ '/' :: (f.rest.dropWhile (· != '/')).drop 1⟩ = _
    unfold Arn.decodeFields
    have h5' : ((f.rest.takeWhile (· != '/') ++ '/' ::
        (f.rest.dropWhile (· != '/')).drop 1).all (fun c => !isLineTerm c)) = true := by
      rw [← hdecomp]
      exact h5
    rw [if_pos ⟨rfl, h2, h3, by simp, h5'⟩, if_neg hns3,
      if_pos (show '/' ∈ _ from List.mem_append.mpr (Or.inr (List.mem_cons_self _ _)))]
    rw [(takeWhile_append_first hnotin).1, (takeWhile_append_first hnotin).2]
    simp
  · -- colon branch
    simp only at hres hrt
    subst hres hrt
    obtain ⟨hnotin, hdecomp⟩ := split_at_first hco
    have hnotin' : '/' ∉ f.rest.takeWhile (· != ':') := by
      intro hmem
      exact hnsl (List.takeWhile_subset _ hmem)
    have htne : f.rest.takeWhile (· != ':') ≠ [] := by
      intro he
      exact ht (by rw [he])
    have hmkne : String.mk (f.rest.takeWhile (· != ':')) ≠ "" := by
      intro he
      exact htne (string_mk_inj he)
    have hrp : Arn.formatResourcePart
        ⟨String.mk f.f1, String.mk f.f2, String.mk f.f3, String.mk f.f4,
          String.mk ((f.rest.dropWhile (· != ':')).drop 1),
          some (String.mk (f.rest.takeWhile (· != ':')))⟩ =
        String.mk (f.rest.takeWhile (· != ':')) ++ "/" ++
          String.mk ((f.rest.dropWhile (· != ':')).drop 1) := by
      show (if String.mk (f.rest.takeWhile (· != ':')) = "" then
          String.mk ((f.rest.dropWhile (· != ':')).drop 1)
        else String.mk (f.rest.takeWhile (· != ':')) ++ "/" ++
          String.mk ((f.rest.dropWhile (· != ':')).drop 1)) = _
      rw [if_neg hmkne]
    have hfl : (Arn.formatARN
        ⟨String.mk f.f1, String.mk f.f2, String.mk f.f3, String.mk f.f4,
          String.mk ((f.rest.dropWhile (· != ':')).drop 1),
          some (String.mk (f.rest.takeWhile (· != ':')))⟩).toList =
        ['a', 'r', 'n'] ++ ':' :: (f.f1 ++ ':' :: (f.f2 ++ ':' ::
          (f.f3 ++ ':' :: (f.f4 ++ ':' ::
            (f.rest.takeWhile (· != ':') ++ '/' ::
              (f.rest.dropWhile (· != ':')).drop 1))))) := by
      rw [Arn.formatARN, hrp]
      rw [build_toList]
      simp only [toList_mk, slash_toList]
    unfold Arn.parseARN
    rw [hfl, parseFields_append (by decide) hn1 hn2 hn3 hn4]
    show Arn.decodeFields ⟨['a', 'r', 'n'], f.f1, f.f2, f.f3, f.f4,
      f.rest.takeWhile (· != ':') ++ '/' :: (f.rest.dropWhile (· != ':')).drop 1⟩ = _
    unfold Arn.decodeFields
    have hall : ∀ c ∈ f.rest, (!isLineTerm c) = true := List.all_eq_true.mp h5
    have h5' : ((f.rest.takeWhile (· != ':') ++ '/' ::
        (f.rest.dropWhile (· != ':')).drop 1).all (fun c => !isLineTerm c)) = true := by
      apply List.all_eq_true.mpr
      intro c hc
      rcases List.mem_append.mp hc with hc | hc
      · exact hall c (by rw [hdecomp]; exact List.mem_append_left _ hc)
      · rcases List.mem_cons.mp hc with hc | hc
        · rw [hc]
          decide
        · exact hall c (by
            rw [hdecomp]
            exact List.mem_append_right _ (List.mem_cons_of_mem _ hc))
    rw [if_pos ⟨rfl, h2, h3, by simp, h5'⟩, if_neg hns3,
      if_pos (show '/' ∈ _ from List.mem_append.mpr (Or.inr (List.mem_cons_self _ _)))]
    rw [(takeWhile_append_first hnotin').1, (takeWhile_append_first hnotin').2]
    simp
  · -- plain branch
    simp only at hres hrt
    subst hres hrt
    have hfl : (Arn.formatARN
        ⟨String.mk f.f1, String.mk f.f2, String.mk f.f3, String.mk f.f4,
          String.mk f.rest, none⟩).toList =
        ['a', 'r', 'n'] ++ ':' :: (f.f1 ++ ':' :: (f.f2 ++ ':' ::
          (f.f3 ++ ':' :: (f.f4 ++ ':' :: f.rest)))) := by
      show ("arn:" ++ String.mk f.f1 ++ ":" ++ String.mk f.f2 ++ ":" ++
        String.mk f.f3 ++ ":" ++ String.mk f.f4 ++ ":" ++ String.mk f.rest).toList = _
      rw [build_toList]
      simp only [toList_mk]
    unfold Arn.parseARN
    rw [hfl, parseFields_append (by decide) hn1 hn2 hn3 hn4]
    show Arn.decodeFields ⟨['a', 'r', 'n'], f.f1, f.f2, f.f3, f.f4, f.rest⟩ = _
    unfold Arn.decodeFields
    rw [if_pos ⟨rfl, h2, h3, h4, h5⟩, if_neg hns3, if_neg hnsl, if_neg hnco]

/-- Claim C7 counterexample: for `x = "arn:aws:ec2:us-east-1:123::x"`,
`parseARN` succeeds with `resourceType = ""` (the resource part `:x`
splits at its leading colon), but `formatARN` treats the empty
resource type as falsy and emits `arn:aws:ec2:us-east-1:123:x`, which
re-parses with no `resourceType` at all — so
`parse(format(parse(x))) ≠ parse(x)`. -/
theorem parse_format_roundtrip_cex :
    (Arn.parseARN "arn:aws:ec2:us-east-1:123::x").bind
        (fun p => Arn.parseARN (Arn.formatARN p)) ≠
      Arn.parseARN "arn:aws:ec2:us-east-1:123::x" := by
  decide

/-- Claim C7 witness: the amended round-trip theorem applied to the
identifier `arn:aws:ec2:us-east-1:123456789012:instance/i-123`. -/
theorem parse_format_roundtrip_witness :
    Arn.parseARN (Arn.formatARN
      ⟨"aws", "ec2", "us-east-1", "123456789012", "i-123", some "instance"⟩) =
      some ⟨"aws", "ec2", "us-east-1", "123456789012", "i-123", some "instance"⟩ :=
  parse_format_roundtrip "arn:aws:ec2:us-east-1:123456789012:instance/i-123"
    ⟨"aws", "ec2", "us-east-1", "123456789012", "i-123", some "instance"⟩
    (by decide) (by decide)
